import Mathlib

/-!
# Verification of the Spam-Email-Detection core data structures

Shallow embedding of the two core components of the repository:

* `rbtree_core.py` — a red-black tree keyed by domain name
  (`RedBlackTree.insert_domain`, `_insert_fixup`, `_left_rotate`,
  `_right_rotate`, `search_domain`, `increment_spam_reports`,
  `increment_legitimate_reports`, `verify_rb_properties` and its helpers).
* `bloom_filter.py` — a Bloom filter (`BloomFilter.__init__`,
  `_calculate_optimal_size`, `_calculate_optimal_hash_count`, the four
  mixing functions, `_get_hash_values`, `add`, `contains`, `clear`).

Modelling choices, uniform throughout:

* Python `int` is `Int` (`Nat` where the source value is provably
  non-negative); `& 0xFFFFFFFF` becomes `% 2^32`.
* Python `%` is floor-style modulo, embedded as `Int.fmod`.
* The pointer-and-parent structure of the tree is embedded as an
  inductive tree plus an explicit zipper (list of ancestors); the
  imperative fixup loop walks that zipper exactly as the Python loop
  walks parent pointers.
* Mutating methods become state-passing functions; methods that read
  but do not write return the unchanged state explicitly.
* Python floats are modelled as real numbers; `math.log` raising
  `ValueError` on non-positive arguments and `/` raising
  `ZeroDivisionError` are modelled with `Except`.
-/

namespace SpamDetection

/-! ## Red-black tree: data model (`rbtree_core.py`) -/

/-- Python `<` on strings, list level: lexicographic comparison of the
numeric code points (`ord`). -/
def charListLt : List Char → List Char → Bool
  | [], [] => false
  | [], _ :: _ => true
  | _ :: _, [] => false
  | a :: as, b :: bs =>
    if a.toNat < b.toNat then true
    else if b.toNat < a.toNat then false
    else charListLt as bs

/-- Python `<` on strings: lexicographic comparison by code point. -/
def strLt (a b : String) : Bool := charListLt a.data b.data

/-- `class Color(Enum)`. -/
inductive Color where
  | RED
  | BLACK
deriving DecidableEq, Repr

/-- The data payload of an `RBNode`: `domain`, `reputation_score`,
`spam_reports`, `legitimate_reports` (the `last_updated` field is never
read by the core and is omitted).  Colours and links live in `Tree`. -/
structure Entry where
  domain : String
  reputation_score : Int
  spam_reports : Int
  legitimate_reports : Int
deriving DecidableEq, Repr

/-- A subtree: the sentinel `NIL` or a node with a colour, payload and
two children.  Parent pointers are represented by the zipper below. -/
inductive Tree where
  | nil
  | node (color : Color) (left : Tree) (entry : Entry) (right : Tree)
deriving DecidableEq, Repr

namespace Tree

/-- Colour of the root of a subtree: the sentinel is always BLACK. -/
def rootColor : Tree → Color
  | nil => Color.BLACK
  | node c _ _ _ => c

/-- Repaint the root of a subtree (`node.color = ...` in Python);
painting the sentinel is a no-op (the sentinel stays BLACK). -/
def paint (c : Color) : Tree → Tree
  | nil => nil
  | node _ l e r => node c l e r

/-- In-order sequence of entries (`_inorder_collect_all`, with the full
payload kept). -/
def inorderEntries : Tree → List Entry
  | nil => []
  | node _ l e r => inorderEntries l ++ e :: inorderEntries r

/-- In-order sequence of domains. -/
def inorderDomains (t : Tree) : List String :=
  (inorderEntries t).map Entry.domain

/-- `RedBlackTree._verify_no_red_red`, translated directly: no RED node
has a RED child. -/
def verifyNoRedRed : Tree → Bool
  | nil => true
  | node c l _ r =>
    let selfOk : Bool :=
      match c with
      | Color.RED => !(rootColor l = Color.RED) && !(rootColor r = Color.RED)
      | Color.BLACK => true
    selfOk && verifyNoRedRed l && verifyNoRedRed r

/-- `RedBlackTree._get_black_height`, translated directly: black height
of the subtree, `-1` if some pair of paths disagrees. -/
def getBlackHeight : Tree → Int
  | nil => 1
  | node c l _ r =>
    let lh := getBlackHeight l
    let rh := getBlackHeight r
    if lh = -1 ∨ rh = -1 ∨ lh ≠ rh then -1
    else if c = Color.BLACK then lh + 1 else lh

/-- Root-is-black check from `verify_rb_properties`: the check passes
when the root is the sentinel or is BLACK. -/
def rootBlackOk (t : Tree) : Bool :=
  match t with
  | nil => true
  | node c _ _ _ => c = Color.BLACK

end Tree

/-! ### The zipper: explicit representation of the parent pointers

A `PathElem` records one ancestor of the focused subtree: the side the
focus hangs on (`dir`), the ancestor's colour and payload, and the
subtree on the other side (`sibling`).  A list of `PathElem`s, child
first, is exactly the chain of parent pointers from a node to the
root. -/

inductive Dir where
  | left
  | right
deriving DecidableEq, Repr

structure PathElem where
  dir : Dir
  color : Color
  entry : Entry
  sibling : Tree
deriving DecidableEq, Repr

/-- Rebuild the immediate parent node around a focused subtree. -/
def attach (p : PathElem) (t : Tree) : Tree :=
  match p.dir with
  | Dir.left => Tree.node p.color t p.entry p.sibling
  | Dir.right => Tree.node p.color p.sibling p.entry t

/-- Plug a focused subtree back along a whole path, innermost ancestor
first. -/
def zip : Tree → List PathElem → Tree
  | t, [] => t
  | t, p :: rest => zip (attach p t) rest

/-- `RedBlackTree._left_rotate`, at the level of the rotated subtree.
Rotation re-links pointers only, so every node keeps its colour and
payload.  The fallback case (pivot whose right child is the sentinel)
is unreachable from `_insert_fixup`; Python would corrupt the tree
there. -/
def left_rotate : Tree → Tree
  | Tree.node xc xl xe (Tree.node yc yl ye yr) =>
      Tree.node yc (Tree.node xc xl xe yl) ye yr
  | t => t

/-- `RedBlackTree._right_rotate`, mirror image of `left_rotate`. -/
def right_rotate : Tree → Tree
  | Tree.node yc (Tree.node xc xl xe xr) ye yr =>
      Tree.node xc xl xe (Tree.node yc xr ye yr)
  | t => t

/-- The descent loop of `insert_domain` (`while current != self.NIL`),
accumulating the path walked so far.  `inl path` is the "fell off at a
leaf" outcome: the new node is to be attached under `path`.
`inr (path, c, e, l, r)` is the "domain already exists" outcome: the
existing node is `node c l e r`, sitting under `path`. -/
def insertDescend (t : Tree) (d : String) (acc : List PathElem) :
    List PathElem ⊕ (List PathElem × Color × Entry × Tree × Tree) :=
  match t with
  | Tree.nil => Sum.inl acc
  | Tree.node c l e r =>
    if strLt d e.domain then
      insertDescend l d ({ dir := Dir.left, color := c, entry := e, sibling := r } :: acc)
    else if strLt e.domain d then
      insertDescend r d ({ dir := Dir.right, color := c, entry := e, sibling := l } :: acc)
    else
      Sum.inr (acc, c, e, l, r)

/-- `RedBlackTree._insert_fixup`.  The Python loop keeps a current node
`z` and climbs parent pointers; here the parents are the path list.
Each loop iteration maps to one equation:

* empty path, or BLACK parent → loop exits, tree is re-assembled and the
  root painted BLACK (`self.root.color = Color.BLACK`);
* RED parent, RED uncle (Case 1) → recolour parent/uncle BLACK and
  grandparent RED, continue from the grandparent;
* RED parent, BLACK uncle (Cases 2/3) → rotate the parent subtree when
  the focus is the inner grandchild (Case 2), then recolour parent
  BLACK / grandparent RED and rotate the grandparent (Case 3); the loop
  condition then fails (the new parent is BLACK), so re-assemble.

A RED parent that is the root has no grandparent; Python would raise
`AttributeError` there (`node.parent.parent.left`).  The case is
unreachable (the root is always BLACK); the model re-assembles and
paints the root BLACK. -/
def insert_fixup (z : Tree) : List PathElem → Tree
  | [] => Tree.paint Color.BLACK z
  | [p] =>
      if p.color = Color.RED then
        Tree.paint Color.BLACK (attach p z)
      else
        Tree.paint Color.BLACK (attach p z)
  | p :: g :: rest =>
      if p.color = Color.RED then
        if (Tree.rootColor g.sibling) = Color.RED then
          -- Case 1: recolour and continue from the grandparent
          insert_fixup
            (attach { g with color := Color.RED,
                             sibling := Tree.paint Color.BLACK g.sibling }
              (attach { p with color := Color.BLACK } z))
            rest
        else
          match g.dir with
          | Dir.left =>
            -- parent is a left child; Case 2 when the focus is a right child
            let pSub := attach p z
            let pSub2 := if p.dir = Dir.right then left_rotate pSub else pSub
            -- Case 3: parent BLACK, grandparent RED, right-rotate grandparent
            let gSub := right_rotate
              (Tree.node Color.RED (Tree.paint Color.BLACK pSub2) g.entry g.sibling)
            Tree.paint Color.BLACK (zip gSub rest)
          | Dir.right =>
            let pSub := attach p z
            let pSub2 := if p.dir = Dir.left then right_rotate pSub else pSub
            let gSub := left_rotate
              (Tree.node Color.RED g.sibling g.entry (Tree.paint Color.BLACK pSub2))
            Tree.paint Color.BLACK (zip gSub rest)
      else
        Tree.paint Color.BLACK (zip z (p :: g :: rest))

/-- `RedBlackTree` object state: the root and the `size` counter. -/
structure RBState where
  root : Tree
  size : Nat
deriving DecidableEq, Repr

/-- `RedBlackTree.__init__`: empty tree. -/
def RBState.empty : RBState := { root := Tree.nil, size := 0 }

/-- `RedBlackTree.insert_domain`.  Returns the new state together with
the payload of the returned node (`return current` / `return new_node`).
On a duplicate domain only `reputation_score` is overwritten in place;
otherwise a new RED node is attached and `_insert_fixup` runs. -/
def insert_domain (st : RBState) (domain : String) (reputation_score : Int) :
    RBState × Entry :=
  match insertDescend st.root domain [] with
  | Sum.inr (path, c, e, l, r) =>
      let e' := { e with reputation_score := reputation_score }
      ({ root := zip (Tree.node c l e' r) path, size := st.size }, e')
  | Sum.inl path =>
      let eNew : Entry :=
        { domain := domain, reputation_score := reputation_score,
          spam_reports := 0, legitimate_reports := 0 }
      let z := Tree.node Color.RED Tree.nil eNew Tree.nil
      ({ root := insert_fixup z path, size := st.size + 1 }, eNew)

/-- `RedBlackTree.search_domain`: comparison descent; `none` models the
Python `None` result.  The comparisons are in source order
(`==`, then `<`, else go right). -/
def search_domain (t : Tree) (domain : String) : Option Entry :=
  match t with
  | Tree.nil => none
  | Tree.node _ l e r =>
    if domain = e.domain then some e
    else if strLt domain e.domain then search_domain l domain
    else search_domain r domain

/-- `RedBlackTree.increment_spam_reports`: `search_domain`, then mutate
the found node in place.  The state-passing embedding re-walks the same
comparison path and rebuilds it around the mutated node. -/
def increment_spam_reports (t : Tree) (domain : String) (amount : Int) :
    Tree × Option Int :=
  match t with
  | Tree.nil => (Tree.nil, none)
  | Tree.node c l e r =>
    if domain = e.domain then
      let e' := { e with
        spam_reports := e.spam_reports + amount,
        reputation_score := max 0 (e.reputation_score - amount * 5) }
      (Tree.node c l e' r, some e'.reputation_score)
    else if strLt domain e.domain then
      let res := increment_spam_reports l domain amount
      (Tree.node c res.1 e r, res.2)
    else
      let res := increment_spam_reports r domain amount
      (Tree.node c l e res.1, res.2)

/-- `RedBlackTree.increment_legitimate_reports`, same shape. -/
def increment_legitimate_reports (t : Tree) (domain : String) (amount : Int) :
    Tree × Option Int :=
  match t with
  | Tree.nil => (Tree.nil, none)
  | Tree.node c l e r =>
    if domain = e.domain then
      let e' := { e with
        legitimate_reports := e.legitimate_reports + amount,
        reputation_score := min 100 (e.reputation_score + amount * 3) }
      (Tree.node c l e' r, some e'.reputation_score)
    else if strLt domain e.domain then
      let res := increment_legitimate_reports l domain amount
      (Tree.node c res.1 e r, res.2)
    else
      let res := increment_legitimate_reports r domain amount
      (Tree.node c l e res.1, res.2)

/-- Fold a list of `(domain, score)` inserts from the empty tree. -/
def runInserts (ops : List (String × Int)) : RBState :=
  ops.foldl (fun st op => (insert_domain st op.1 op.2).1) RBState.empty

/-- `search_domain` with the state threaded explicitly: the method body
contains no assignment, so the embedding returns the tree unchanged. -/
def search_domainS (t : Tree) (domain : String) : Option Entry × Tree :=
  (search_domain t domain, t)

/-! ### Specification predicates for the tree -/

/-- Red-black validity of a subtree, with its black height (sentinel
convention `1`, matching `_get_black_height`): no red-red adjacency,
all paths to the sentinel cross the same number of BLACK nodes. -/
inductive IsRB : Tree → Nat → Prop where
  | nil : IsRB Tree.nil 1
  | red {l r : Tree} {e : Entry} {h : Nat} :
      IsRB l h → IsRB r h →
      Tree.rootColor l = Color.BLACK → Tree.rootColor r = Color.BLACK →
      IsRB (Tree.node Color.RED l e r) h
  | black {l r : Tree} {e : Entry} {h : Nat} :
      IsRB l h → IsRB r h → IsRB (Tree.node Color.BLACK l e r) (h + 1)

/-- Red-black validity of a zipper context.  `CtxOK path h H c` says:
the ancestors in `path` expect a subtree of black height `h` at the
hole, the whole tree rebuilt from any such subtree has black height
`H`, and `c` is the colour of the hole's immediate parent (BLACK when
the hole is the root).  A RED ancestor forces a BLACK parent above it
and a BLACK-rooted sibling. -/
inductive CtxOK : List PathElem → Nat → Nat → Color → Prop where
  | base {h : Nat} : CtxOK [] h h Color.BLACK
  | black {p : PathElem} {rest : List PathElem} {h H : Nat} {c : Color} :
      p.color = Color.BLACK → IsRB p.sibling h → CtxOK rest (h + 1) H c →
      CtxOK (p :: rest) h H Color.BLACK
  | red {p : PathElem} {rest : List PathElem} {h H : Nat} :
      p.color = Color.RED → IsRB p.sibling h →
      Tree.rootColor p.sibling = Color.BLACK →
      CtxOK rest h H Color.BLACK →
      CtxOK (p :: rest) h H Color.RED

/-- `lo` is a strict lower bound for `d` (`none` = unbounded). -/
def OptLB : Option String → String → Prop
  | none, _ => True
  | some b, d => strLt b d = true

/-- `hi` is a strict upper bound for `d` (`none` = unbounded). -/
def OptUB : Option String → String → Prop
  | none, _ => True
  | some b, d => strLt d b = true

/-- Binary-search-tree ordering with open bounds: every domain in the
subtree lies strictly between `lo` and `hi`. -/
def Ordd (lo hi : Option String) : Tree → Prop
  | Tree.nil => True
  | Tree.node _ l e r =>
      OptLB lo e.domain ∧ OptUB hi e.domain ∧
      Ordd lo (some e.domain) l ∧ Ordd (some e.domain) hi r

/-- Global binary-search-tree ordering. -/
def Ordered (t : Tree) : Prop := Ordd none none t

/-- The full red-black invariant of a tree state: some consistent black
height, a BLACK root, and strict BST ordering. -/
def ValidTree (t : Tree) : Prop :=
  (∃ h, IsRB t h) ∧ Tree.rootColor t = Color.BLACK ∧ Ordered t

/-- Plain BST leaf attachment at the position the comparisons of
`insert_domain` select: used as the recursive characterisation of
"descend, then plug `z` into the reached sentinel". -/
def bstAttach (t : Tree) (d : String) (z : Tree) : Tree :=
  match t with
  | Tree.nil => z
  | Tree.node c l e r =>
    if strLt d e.domain then Tree.node c (bstAttach l d z) e r
    else if strLt e.domain d then Tree.node c l e (bstAttach r d z)
    else Tree.node c l e r

/-- Replace the payload of the node the comparisons of `insert_domain`
find for `d` (no-op when `d` is absent): the recursive
characterisation of the duplicate-insert branch. -/
def replaceFound (t : Tree) (d : String) (x : Entry) : Tree :=
  match t with
  | Tree.nil => Tree.nil
  | Tree.node c l e r =>
    if strLt d e.domain then Tree.node c (replaceFound l d x) e r
    else if strLt e.domain d then Tree.node c l e (replaceFound r d x)
    else Tree.node c l x r

/-- The shape-and-colour skeleton of a tree: structure, colours and
keys, with the mutable payload fields erased. -/
inductive Shape where
  | nil
  | node (c : Color) (d : String) (l r : Shape)
deriving DecidableEq, Repr

/-- Skeleton of a tree. -/
def Tree.skeleton : Tree → Shape
  | Tree.nil => Shape.nil
  | Tree.node c l e r => Shape.node c e.domain l.skeleton r.skeleton

/-! ## Bloom filter (`bloom_filter.py`) -/

/-- 32-bit truncation: `& 0xFFFFFFFF`. -/
def mask32 (n : Nat) : Nat := n % 2 ^ 32

/-- A Python value passed to `add`/`contains`: a `str`, or any
non-string object (rejected by the `isinstance(item, str)` guard). -/
inductive PyItem where
  | str (s : String)
  | nonStr
deriving DecidableEq, Repr

/-- `str.lower` on one character, modelled for the ASCII range
(`'A'..'Z'` map to `'a'..'z'`; every other code point is returned
unchanged — adequate for the ASCII keyword/domain data this system
processes). -/
def pyToLower (c : Char) : Char :=
  if 65 ≤ c.toNat ∧ c.toNat ≤ 90 then Char.ofNat (c.toNat + 32) else c

/-- The whitespace stripped by `str.strip`, on the ASCII range
(space, tab, newline, carriage return, vertical tab, form feed). -/
def pySpace (c : Char) : Bool :=
  c.toNat = 32 ∨ c.toNat = 9 ∨ c.toNat = 10 ∨ c.toNat = 13 ∨
    c.toNat = 11 ∨ c.toNat = 12

/-- `str.strip()`: drop leading and trailing whitespace.  The string is
handled as its list of code points. -/
def pyStrip (l : List Char) : List Char :=
  ((l.dropWhile pySpace).reverse.dropWhile pySpace).reverse

/-- `str.lower()` over a whole string. -/
def pyLower (l : List Char) : List Char := l.map pyToLower

/-- UTF-8 encoding of one code point (`key.encode('utf-8')`), as the
list of byte values. -/
def utf8EncodeChar (c : Char) : List Nat :=
  let n := c.toNat
  if n < 0x80 then [n]
  else if n < 0x800 then
    [0xC0 + n / 0x40, 0x80 + n % 0x40]
  else if n < 0x10000 then
    [0xE0 + n / 0x1000, 0x80 + n / 0x40 % 0x40, 0x80 + n % 0x40]
  else
    [0xF0 + n / 0x40000, 0x80 + n / 0x1000 % 0x40, 0x80 + n / 0x40 % 0x40,
      0x80 + n % 0x40]

/-- `key.encode('utf-8')` over a whole string. -/
def utf8Bytes (l : List Char) : List Nat := (l.map utf8EncodeChar).flatten

/-- One iteration of the `_murmur_hash` loop:
`hash_val ^= byte; hash_val *= 0x5bd1e995; hash_val &= 0xFFFFFFFF;
hash_val ^= hash_val >> 15`. -/
def murmurStep (h b : Nat) : Nat :=
  let h1 := h ^^^ b
  let h2 := mask32 (h1 * 0x5bd1e995)
  h2 ^^^ (h2 >>> 15)

/-- `BloomFilter._murmur_hash` (before the final `% self.size`). -/
def murmurBody (key : List Char) (seed : Nat) : Nat :=
  (utf8Bytes key).foldl murmurStep seed

/-- One iteration of the `_fnv_hash` loop. -/
def fnvStep (h c : Nat) : Nat := mask32 ((h ^^^ c) * 0x01000193)

/-- `BloomFilter._fnv_hash` (before the final `% self.size`):
`hash_val = (0x811c9dc5 + seed) & 0xFFFFFFFF`, then fold. -/
def fnvBody (key : List Char) (seed : Nat) : Nat :=
  (key.map Char.toNat).foldl fnvStep (mask32 (0x811c9dc5 + seed))

/-- One iteration of the `_djb2_hash` loop:
`hash_val = ((hash_val << 5) + hash_val) + ord(char); &= 0xFFFFFFFF`. -/
def djb2Step (h c : Nat) : Nat := mask32 ((h <<< 5) + h + c)

/-- `BloomFilter._djb2_hash` (before the final `% self.size`):
`hash_val = 5381 + seed`, then fold. -/
def djb2Body (key : List Char) (seed : Nat) : Nat :=
  (key.map Char.toNat).foldl djb2Step (5381 + seed)

/-- One iteration of the `_sdbm_hash` loop:
`hash_val = ord(char) + (hash_val << 6) + (hash_val << 16) - hash_val`.
The subtrahend `hash_val` never exceeds `hash_val <<< 6`, so natural
subtraction agrees with the Python integer subtraction. -/
def sdbmStep (h c : Nat) : Nat := mask32 (c + (h <<< 6) + (h <<< 16) - h)

/-- `BloomFilter._sdbm_hash` (before the final `% self.size`):
`hash_val = seed`, then fold. -/
def sdbmBody (key : List Char) (seed : Nat) : Nat :=
  (key.map Char.toNat).foldl sdbmStep seed

/-- The raw (pre-modulo) value of `hash_functions[funcIdx]`, in the
order `[_murmur_hash, _fnv_hash, _djb2_hash, _sdbm_hash]` of
`_get_hash_values`.  `funcIdx` is always `i % 4 ∈ {0,1,2,3}`. -/
def hashBody (funcIdx : Nat) (key : List Char) (seed : Nat) : Nat :=
  match funcIdx with
  | 0 => murmurBody key seed
  | 1 => fnvBody key seed
  | 2 => djb2Body key seed
  | _ => sdbmBody key seed

/-- `BloomFilter` object state.  `size` and `num_hashes` are Python
ints (the derivation can make them non-positive for invalid
configurations, see `bloom_init`); the stored target rate is a float,
modelled as a rational. -/
structure BloomFilter where
  expected_items : Int
  false_positive_rate : ℚ
  size : Int
  num_hashes : Int
  bit_array : List Bool
  items_added : Int
deriving DecidableEq, Repr

/-- `BloomFilter._get_hash_values`: normalise the item
(`item.lower().strip()`), then derive `num_hashes` indices, rotating
through the four mixing functions
(`func_idx = i % 4`, `seed = i // 4`), each reduced `% self.size`
(Python floor modulo, `Int.fmod`).  Python's `range` of a non-positive
bound is empty, hence `Int.toNat`. -/
def get_hash_values (bf : BloomFilter) (item : String) : List Int :=
  let itemLower := pyStrip (pyLower item.data)
  (List.range bf.num_hashes.toNat).map fun i =>
    Int.fmod (hashBody (i % 4) itemLower (i / 4)) bf.size

/-- `BloomFilter.add`: no-op unless the item is a non-blank string;
otherwise set the bit at each derived index and bump `items_added`.
Indices produced from a positive `size` lie in `[0, size)`, where
`Int.toNat`-indexing matches Python list indexing. -/
def BloomFilter.add (bf : BloomFilter) (item : PyItem) : BloomFilter :=
  match item with
  | PyItem.nonStr => bf
  | PyItem.str s =>
    if pyStrip s.data = [] then bf
    else
      let indices := get_hash_values bf s
      { bf with
        bit_array := indices.foldl (fun arr idx => arr.set idx.toNat true) bf.bit_array,
        items_added := bf.items_added + 1 }

/-- `BloomFilter.contains`: `False` for non-strings and blank strings;
otherwise true iff every derived bit is set.  The filter state is
returned unchanged — the method performs no assignment. -/
def BloomFilter.contains (bf : BloomFilter) (item : PyItem) : Bool × BloomFilter :=
  match item with
  | PyItem.nonStr => (false, bf)
  | PyItem.str s =>
    if pyStrip s.data = [] then (false, bf)
    else
      let indices := get_hash_values bf s
      (indices.all fun idx => bf.bit_array.getD idx.toNat false, bf)

/-- `BloomFilter.clear`: fresh bit array (`[False] * self.size`) and a
zeroed counter; configuration fields untouched. -/
def BloomFilter.clear (bf : BloomFilter) : BloomFilter :=
  { bf with
    bit_array := List.replicate bf.size.toNat false,
    items_added := 0 }

/-- The exceptions `__init__` can propagate: `math.log` on a
non-positive argument (`ValueError`) and `m / n` with `n = 0`
(`ZeroDivisionError`). -/
inductive PyError where
  | valueError
  | zeroDivisionError
deriving DecidableEq, Repr

/-- `BloomFilter._calculate_optimal_size`:
`int(ceil(-(n * log p) / (log 2) ** 2))`, floats modelled as reals;
`math.log` raises `ValueError` for `p ≤ 0`. -/
noncomputable def calculate_optimal_size (n : Int) (p : ℚ) : Except PyError Int :=
  if p ≤ 0 then Except.error PyError.valueError
  else Except.ok ⌈-((n : ℝ) * Real.log (p : ℝ)) / Real.log 2 ^ 2⌉

/-- `BloomFilter._calculate_optimal_hash_count`:
`int(ceil((m / n) * log 2))`; true division by `n = 0` raises
`ZeroDivisionError`. -/
noncomputable def calculate_optimal_hash_count (m : Int) (n : Int) :
    Except PyError Int :=
  if n = 0 then Except.error PyError.zeroDivisionError
  else Except.ok ⌈((m : ℝ) / (n : ℝ)) * Real.log 2⌉

/-- `BloomFilter.__init__`: store the configuration, derive `size` and
`num_hashes`, allocate `[False] * size` (empty for a non-positive
`size`), zero the counter.  There is no validation beyond the
exceptions the arithmetic itself raises. -/
noncomputable def bloom_init (expected_items : Int) (false_positive_rate : ℚ) :
    Except PyError BloomFilter := do
  let m ← calculate_optimal_size expected_items false_positive_rate
  let k ← calculate_optimal_hash_count m expected_items
  pure
    { expected_items := expected_items,
      false_positive_rate := false_positive_rate,
      size := m,
      num_hashes := k,
      bit_array := List.replicate m.toNat false,
      items_added := 0 }

/-- A filter state as `__init__` leaves it, given the two derived
parameters: cleared bits, zeroed counter. -/
def freshFilter (expected_items : Int) (false_positive_rate : ℚ)
    (size num_hashes : Int) : BloomFilter :=
  { expected_items := expected_items,
    false_positive_rate := false_positive_rate,
    size := size,
    num_hashes := num_hashes,
    bit_array := List.replicate size.toNat false,
    items_added := 0 }

/-- The mutating/query operations a constructed filter can undergo. -/
inductive BloomOp where
  | add (item : PyItem)
  | contains (item : PyItem)
  | clear
deriving DecidableEq, Repr

/-- Run one operation, keeping the state (`contains` returns its state
component). -/
def applyBloomOp (bf : BloomFilter) (op : BloomOp) : BloomFilter :=
  match op with
  | BloomOp.add item => bf.add item
  | BloomOp.contains item => (bf.contains item).2
  | BloomOp.clear => bf.clear

/-- Run a sequence of operations. -/
def applyBloomOps (bf : BloomFilter) (ops : List BloomOp) : BloomFilter :=
  ops.foldl applyBloomOp bf

/-- `BloomFilter.get_false_positive_rate`:
`0.0` before any insert, else `(1 - exp(-k * items / size)) ** k`
(floats as reals; the Python `**` with an integer exponent on the
non-negative base is real exponentiation). -/
noncomputable def get_false_positive_rate (bf : BloomFilter) : ℝ :=
  if bf.items_added = 0 then 0
  else
    (1 - Real.exp (-(bf.num_hashes : ℝ) * (bf.items_added : ℝ) / (bf.size : ℝ)))
      ^ bf.num_hashes.toNat

/-- `BloomFilter.get_stats` (the diagnostics record): configured size,
hash count, counters, the two ratios and the estimated rate.  Real
division models Python float division (`get_capacity_usage` on a
filter configured with `expected_items = 0` would raise in Python; the
total model returns `0` there, which no theorem relies on). -/
noncomputable def get_stats (bf : BloomFilter) :
    Int × Int × Int × Int × ℝ × ℝ × ℚ × ℝ :=
  (bf.size, bf.num_hashes, bf.items_added, bf.expected_items,
    (bf.items_added : ℝ) / (bf.expected_items : ℝ) * 100,
    ((bf.bit_array.count true : ℕ) : ℝ) / (bf.size : ℝ) * 100,
    bf.false_positive_rate,
    get_false_positive_rate bf)

/-- Well-formedness of a filter state: a positive bit-array size, and a
bit array of exactly that length.  Every state `__init__` produces from
a valid configuration satisfies this, and Python list indexing is
defined exactly on such states. -/
def BloomWF (bf : BloomFilter) : Prop :=
  0 < bf.size ∧ (bf.bit_array.length : Int) = bf.size

/-- A sequence of `add` calls. -/
def addAll (bf : BloomFilter) (items : List PyItem) : BloomFilter :=
  items.foldl BloomFilter.add bf

/-! ## Theorems: Bloom filter -/

theorem pyStrip_eq_nil_iff (l : List Char) :
    pyStrip l = [] ↔ ∀ c ∈ l, pySpace c = true := by
  unfold pyStrip
  rw [List.reverse_eq_nil_iff, List.dropWhile_eq_nil_iff]
  constructor
  · intro h c hc
    have hsplit : c ∈ List.takeWhile pySpace l ∨ c ∈ List.dropWhile pySpace l := by
      rw [← List.mem_append, List.takeWhile_append_dropWhile]
      exact hc
    rcases hsplit with h1 | h1
    · exact List.mem_takeWhile_imp h1
    · exact h c (List.mem_reverse.mpr h1)
  · intro h c hc
    exact h c ((List.dropWhile_sublist pySpace).mem (List.mem_reverse.mp hc))

theorem toNat_ofNat_of_lt {n : Nat} (h : n < 0xd800) : (Char.ofNat n).toNat = n := by
  have hv : n.isValidChar := Or.inl h
  show (Char.ofNat n).toNat = n
  rw [Char.ofNat, dif_pos hv]
  unfold Char.ofNatAux
  rfl

theorem pySpace_pyToLower (c : Char) : pySpace (pyToLower c) = pySpace c := by
  unfold pyToLower
  split
  · next h =>
    obtain ⟨h1, h2⟩ := h
    have hval : (Char.ofNat (c.toNat + 32)).toNat = c.toNat + 32 :=
      toNat_ofNat_of_lt (by omega)
    unfold pySpace
    rw [hval]
    simp only [decide_eq_decide]
    omega
  · rfl

theorem pyStrip_pyLower_eq_nil_iff (l : List Char) :
    pyStrip (pyLower l) = [] ↔ pyStrip l = [] := by
  rw [pyStrip_eq_nil_iff, pyStrip_eq_nil_iff]
  unfold pyLower
  constructor
  · intro h c hc
    have := h (pyToLower c) (List.mem_map_of_mem pyToLower hc)
    rwa [pySpace_pyToLower] at this
  · intro h c hc
    obtain ⟨a, ha, rfl⟩ := List.mem_map.mp hc
    rw [pySpace_pyToLower]
    exact h a ha

/-- Claim C8: `add` on a non-string, or on a string that is empty after
normalisation (lowercase, trim), is a no-op (no bits set, counter
unchanged), and `contains` returns `false` with the state unchanged;
neither raises an error. -/
theorem claim_C8_invalid_input_noop (bf : BloomFilter) (item : PyItem)
    (h : item = PyItem.nonStr ∨
      ∃ s, item = PyItem.str s ∧ pyStrip (pyLower s.data) = []) :
    bf.add item = bf ∧ bf.contains item = (false, bf) := by
  rcases h with rfl | ⟨s, rfl, hs⟩
  · exact ⟨rfl, rfl⟩
  · have hs' : pyStrip s.data = [] := (pyStrip_pyLower_eq_nil_iff _).mp hs
    refine ⟨?_, ?_⟩ <;> simp [BloomFilter.add, BloomFilter.contains, hs']

theorem claim_C8_witness :
    (PyItem.str "  " = PyItem.nonStr ∨
      ∃ s, PyItem.str "  " = PyItem.str s ∧ pyStrip (pyLower s.data) = []) ∧
    ((freshFilter 10 1 13 2).add (PyItem.str "  ") = freshFilter 10 1 13 2 ∧
      (freshFilter 10 1 13 2).contains (PyItem.str "  ") =
        (false, freshFilter 10 1 13 2)) :=
  ⟨Or.inr ⟨"  ", rfl, by decide⟩,
    claim_C8_invalid_input_noop (freshFilter 10 1 13 2) (PyItem.str "  ")
      (Or.inr ⟨"  ", rfl, by decide⟩)⟩

/-- Claim C10: `contains` leaves the filter state — bit array, counter
and configuration — entirely unchanged, for every input whatsoever. -/
theorem claim_C10_contains_pure (bf : BloomFilter) (item : PyItem) :
    (bf.contains item).2 = bf := by
  cases item with
  | nonStr => rfl
  | str s =>
    simp only [BloomFilter.contains]
    split <;> rfl

theorem applyBloomOp_config (bf : BloomFilter) (op : BloomOp) :
    (applyBloomOp bf op).expected_items = bf.expected_items ∧
    (applyBloomOp bf op).false_positive_rate = bf.false_positive_rate ∧
    (applyBloomOp bf op).size = bf.size ∧
    (applyBloomOp bf op).num_hashes = bf.num_hashes := by
  cases op with
  | add item =>
    cases item with
    | nonStr => exact ⟨rfl, rfl, rfl, rfl⟩
    | str s =>
      simp only [applyBloomOp, BloomFilter.add]
      split <;> exact ⟨rfl, rfl, rfl, rfl⟩
  | contains item =>
    cases item with
    | nonStr => exact ⟨rfl, rfl, rfl, rfl⟩
    | str s =>
      simp only [applyBloomOp, BloomFilter.contains]
      split <;> exact ⟨rfl, rfl, rfl, rfl⟩
  | clear => exact ⟨rfl, rfl, rfl, rfl⟩

theorem applyBloomOps_config (bf : BloomFilter) (ops : List BloomOp) :
    (applyBloomOps bf ops).expected_items = bf.expected_items ∧
    (applyBloomOps bf ops).false_positive_rate = bf.false_positive_rate ∧
    (applyBloomOps bf ops).size = bf.size ∧
    (applyBloomOps bf ops).num_hashes = bf.num_hashes := by
  induction ops generalizing bf with
  | nil => exact ⟨rfl, rfl, rfl, rfl⟩
  | cons op rest ih =>
    have h1 := applyBloomOp_config bf op
    have h2 := ih (applyBloomOp bf op)
    exact ⟨h2.1.trans h1.1, h2.2.1.trans h1.2.1, h2.2.2.1.trans h1.2.2.1,
      h2.2.2.2.trans h1.2.2.2⟩

/-- Claim C9: from any state reachable by a sequence of operations on a
freshly constructed filter, `clear()` restores exactly the fresh state,
so every subsequent operation sequence — and the diagnostics — behave
identically to a freshly constructed instance with the same derived
configuration. -/
theorem claim_C9_clear_restores_fresh (ei : Int) (p : ℚ) (m k : Int)
    (ops : List BloomOp) :
    (applyBloomOps (freshFilter ei p m k) ops).clear = freshFilter ei p m k ∧
    (∀ ops2, applyBloomOps (applyBloomOps (freshFilter ei p m k) ops).clear ops2 =
      applyBloomOps (freshFilter ei p m k) ops2) ∧
    get_stats (applyBloomOps (freshFilter ei p m k) ops).clear =
      get_stats (freshFilter ei p m k) := by
  obtain ⟨h1, h2, h3, h4⟩ := applyBloomOps_config (freshFilter ei p m k) ops
  have hmain : (applyBloomOps (freshFilter ei p m k) ops).clear = freshFilter ei p m k := by
    unfold BloomFilter.clear freshFilter
    simp_all [BloomFilter.mk.injEq, freshFilter]
  exact ⟨hmain, fun ops2 => by rw [hmain], by rw [hmain]⟩

theorem foldl_set_length (idxs : List Int) (arr : List Bool) :
    (idxs.foldl (fun a i => a.set i.toNat true) arr).length = arr.length := by
  induction idxs generalizing arr with
  | nil => rfl
  | cons i rest ih =>
    simp only [List.foldl_cons]
    rw [ih, List.length_set]

theorem getD_set_true_mono {arr : List Bool} {j : Nat} (i : Nat)
    (h : arr.getD j false = true) : (arr.set i true).getD j false = true := by
  rw [List.getD_eq_getElem?_getD] at h ⊢
  have hj : j < arr.length := by
    by_contra hge
    rw [List.getElem?_eq_none (by omega)] at h
    simp at h
  rcases eq_or_ne i j with rfl | hne
  · rw [List.getElem?_set_self hj]
    rfl
  · rw [List.getElem?_set_ne hne]
    exact h

theorem foldl_set_true_mono (idxs : List Int) {arr : List Bool} {j : Nat}
    (h : arr.getD j false = true) :
    (idxs.foldl (fun a i => a.set i.toNat true) arr).getD j false = true := by
  induction idxs generalizing arr with
  | nil => exact h
  | cons i rest ih =>
    simp only [List.foldl_cons]
    exact ih (getD_set_true_mono i.toNat h)

theorem foldl_set_true_self (idxs : List Int) {i : Int} (hi : i ∈ idxs) :
    ∀ arr : List Bool, i.toNat < arr.length →
      (idxs.foldl (fun a x => a.set x.toNat true) arr).getD i.toNat false = true := by
  induction idxs with
  | nil => cases hi
  | cons x rest ih =>
    intro arr hlen
    simp only [List.foldl_cons]
    rcases List.mem_cons.mp hi with rfl | hmem
    · apply foldl_set_true_mono
      rw [List.getD_eq_getElem?_getD, List.getElem?_set_self hlen]
      rfl
    · exact ih hmem (arr.set x.toNat true) (by rw [List.length_set]; exact hlen)

theorem add_size (bf : BloomFilter) (item : PyItem) : (bf.add item).size = bf.size :=
  (applyBloomOp_config bf (BloomOp.add item)).2.2.1

theorem add_num_hashes (bf : BloomFilter) (item : PyItem) :
    (bf.add item).num_hashes = bf.num_hashes :=
  (applyBloomOp_config bf (BloomOp.add item)).2.2.2

theorem add_bit_length (bf : BloomFilter) (item : PyItem) :
    (bf.add item).bit_array.length = bf.bit_array.length := by
  cases item with
  | nonStr => rfl
  | str s =>
    simp only [BloomFilter.add]
    split
    · rfl
    · exact foldl_set_length _ _

theorem get_hash_values_congr {bf1 bf2 : BloomFilter} (hs : bf1.size = bf2.size)
    (hk : bf1.num_hashes = bf2.num_hashes) (s : String) :
    get_hash_values bf1 s = get_hash_values bf2 s := by
  unfold get_hash_values
  rw [hs, hk]

theorem get_hash_values_bounds {bf : BloomFilter} (hpos : 0 < bf.size)
    {s : String} {idx : Int} (h : idx ∈ get_hash_values bf s) :
    0 ≤ idx ∧ idx < bf.size := by
  unfold get_hash_values at h
  obtain ⟨i, _, rfl⟩ := List.mem_map.mp h
  exact ⟨Int.fmod_nonneg (Int.natCast_nonneg _) (le_of_lt hpos),
    Int.fmod_lt_of_pos _ hpos⟩

theorem add_bits_mono {bf : BloomFilter} (item : PyItem) {j : Nat}
    (h : bf.bit_array.getD j false = true) :
    (bf.add item).bit_array.getD j false = true := by
  cases item with
  | nonStr => exact h
  | str s =>
    simp only [BloomFilter.add]
    split
    · exact h
    · exact foldl_set_true_mono _ h

theorem add_sets_bits {bf : BloomFilter} (hwf : BloomWF bf) {s : String}
    (hs : pyStrip s.data ≠ []) {idx : Int} (hidx : idx ∈ get_hash_values bf s) :
    (bf.add (PyItem.str s)).bit_array.getD idx.toNat false = true := by
  obtain ⟨h0, hlt⟩ := get_hash_values_bounds hwf.1 hidx
  have hlen : idx.toNat < bf.bit_array.length := by
    have := hwf.2
    omega
  simp only [BloomFilter.add]
  rw [if_neg hs]
  exact foldl_set_true_self _ hidx bf.bit_array hlen

theorem contains_true_of_bits {bf : BloomFilter} {s : String}
    (hs : pyStrip s.data ≠ [])
    (h : ∀ idx ∈ get_hash_values bf s, bf.bit_array.getD idx.toNat false = true) :
    (bf.contains (PyItem.str s)).1 = true := by
  simp only [BloomFilter.contains]
  rw [if_neg hs]
  simp only [List.all_eq_true]
  exact fun idx hidx => h idx hidx

/-- Claim C2: once a (non-blank) string has been added, `contains` on
that string returns `true` after any further sequence of `add` calls —
false negatives are impossible.  `BloomWF` states that the filter has a
positive bit-array size with a matching bit array, which holds for
every validly constructed filter. -/
theorem claim_C2_no_false_negatives (bf : BloomFilter) (s : String)
    (items : List PyItem) (hwf : BloomWF bf) (hs : pyStrip s.data ≠ []) :
    ((addAll (bf.add (PyItem.str s)) items).contains (PyItem.str s)).1 = true := by
  suffices hgen : ∀ g : BloomFilter, g.size = bf.size → g.num_hashes = bf.num_hashes →
      (∀ idx ∈ get_hash_values bf s, g.bit_array.getD idx.toNat false = true) →
      ((addAll g items).contains (PyItem.str s)).1 = true by
    exact hgen (bf.add (PyItem.str s)) (add_size bf _) (add_num_hashes bf _)
      (fun idx hidx => add_sets_bits hwf hs hidx)
  induction items with
  | nil =>
    intro g h1 h2 h3
    show (g.contains (PyItem.str s)).1 = true
    apply contains_true_of_bits hs
    rw [get_hash_values_congr h1 h2]
    exact h3
  | cons it rest ih =>
    intro g h1 h2 h3
    show ((addAll (g.add it) rest).contains (PyItem.str s)).1 = true
    exact ih (g.add it) ((add_size g it).trans h1) ((add_num_hashes g it).trans h2)
      (fun idx hidx => add_bits_mono it (h3 idx hidx))

theorem claim_C2_witness :
    BloomWF (freshFilter 10 1 13 2) ∧ pyStrip "viagra".data ≠ [] ∧
    ((addAll ((freshFilter 10 1 13 2).add (PyItem.str "viagra"))
        [PyItem.str "casino"]).contains (PyItem.str "viagra")).1 = true :=
  ⟨by constructor <;> decide, by decide,
    claim_C2_no_false_negatives (freshFilter 10 1 13 2) "viagra"
      [PyItem.str "casino"] ⟨by decide, by decide⟩ (by decide)⟩

/-- Claim C5, counterexample: the configuration
`expected_items = 10`, `false_positive_rate = 1` has its target rate
outside `(0,1)`, yet `__init__` completes without any rejection
(`log 1 = 0` gives a degenerate size-0, zero-hash filter).  The
claimed guarantee "construction fails whenever the rate is outside
`(0,1)` or the count is non-positive" is therefore false. -/
theorem claim_C5_counterexample :
    ¬((1 : ℚ) ∈ Set.Ioo (0 : ℚ) 1) ∧
    bloom_init 10 1 = Except.ok (freshFilter 10 1 0 0) := by
  constructor
  · simp [Set.mem_Ioo]
  · have hm : ⌈-((10 : Int) * Real.log ((1 : ℚ) : ℝ)) / Real.log 2 ^ 2⌉ = (0 : Int) := by
      push_cast
      rw [Real.log_one]
      norm_num
    have hk : ⌈(((0 : Int) : ℝ) / ((10 : Int) : ℝ)) * Real.log 2⌉ = (0 : Int) := by
      push_cast
      norm_num
    have h1 : ¬(1 : ℚ) ≤ 0 := by norm_num
    have h2 : ¬(10 : Int) = 0 := by norm_num
    simp only [bloom_init, calculate_optimal_size, calculate_optimal_hash_count,
      if_neg h1, if_neg h2, hm, hk, Bind.bind, Except.bind, pure, Except.pure,
      freshFilter]

/-- Claim C5, amended: `__init__` performs no validation; construction
fails exactly when the arithmetic itself raises — `math.log` on a rate
`≤ 0` (`ValueError`) or the hash-count division with
`expected_items = 0` (`ZeroDivisionError`).  Any other configuration,
including a negative item count or a rate `≥ 1`, constructs without
rejection. -/
theorem claim_C5_amended_failure_semantics (n : Int) (p : ℚ) :
    (∃ e, bloom_init n p = Except.error e) ↔ p ≤ 0 ∨ n = 0 := by
  by_cases hp : p ≤ 0
  · simp only [bloom_init, calculate_optimal_size, if_pos hp]
    constructor
    · intro _
      exact Or.inl hp
    · intro _
      exact ⟨PyError.valueError, rfl⟩
  · by_cases hn : n = 0
    · simp only [bloom_init, calculate_optimal_size, calculate_optimal_hash_count,
        if_neg hp, if_pos hn, Bind.bind, Except.bind]
      constructor
      · intro _
        exact Or.inr hn
      · intro _
        exact ⟨PyError.zeroDivisionError, rfl⟩
    · simp only [bloom_init, calculate_optimal_size, calculate_optimal_hash_count,
        if_neg hp, if_neg hn, Bind.bind, Except.bind, pure, Except.pure]
      constructor
      · rintro ⟨e, he⟩
        cases he
      · rintro (h | h)
        · exact absurd h hp
        · exact absurd h hn

/-- Claim C7: for a valid configuration (`n > 0`, `0 < p < 1`),
construction succeeds and derives `size = ⌈-(n·ln p)/(ln 2)²⌉` and
`num_hashes = ⌈(size/n)·ln 2⌉`, both rounded up, allocating a cleared
bit array of exactly `size` bits with the counter at zero. -/
theorem claim_C7_parameter_derivation (n : Int) (p : ℚ)
    (hn : 0 < n) (hp0 : 0 < p) (hp1 : p < 1) :
    ∃ bf : BloomFilter, bloom_init n p = Except.ok bf ∧
      bf.size = ⌈-((n : ℝ) * Real.log ((p : ℚ) : ℝ)) / Real.log 2 ^ 2⌉ ∧
      bf.num_hashes = ⌈((bf.size : ℝ) / (n : ℝ)) * Real.log 2⌉ ∧
      0 < bf.size ∧
      bf.bit_array = List.replicate bf.size.toNat false ∧
      (bf.bit_array.length : Int) = bf.size ∧
      bf.items_added = 0 ∧
      bf.expected_items = n ∧
      bf.false_positive_rate = p := by
  have hp' : ¬p ≤ 0 := not_le.mpr hp0
  have hn0 : ¬n = 0 := by omega
  have hlogp : Real.log ((p : ℚ) : ℝ) < 0 := by
    apply Real.log_neg
    · exact_mod_cast hp0
    · exact_mod_cast hp1
  have hnR : (0 : ℝ) < (n : ℝ) := by exact_mod_cast hn
  have hpos : 0 < -((n : ℝ) * Real.log ((p : ℚ) : ℝ)) / Real.log 2 ^ 2 := by
    apply div_pos
    · nlinarith
    · exact pow_pos (Real.log_pos (by norm_num)) 2
  have hceil : 0 < ⌈-((n : ℝ) * Real.log ((p : ℚ) : ℝ)) / Real.log 2 ^ 2⌉ :=
    Int.ceil_pos.mpr hpos
  have heq : bloom_init n p = Except.ok
      { expected_items := n, false_positive_rate := p,
        size := ⌈-((n : ℝ) * Real.log ((p : ℚ) : ℝ)) / Real.log 2 ^ 2⌉,
        num_hashes := ⌈((⌈-((n : ℝ) * Real.log ((p : ℚ) : ℝ)) /
          Real.log 2 ^ 2⌉ : ℝ) / (n : ℝ)) * Real.log 2⌉,
        bit_array := List.replicate
          (⌈-((n : ℝ) * Real.log ((p : ℚ) : ℝ)) / Real.log 2 ^ 2⌉).toNat false,
        items_added := 0 } := by
    simp only [bloom_init, calculate_optimal_size, calculate_optimal_hash_count,
      if_neg hp', if_neg hn0, Bind.bind, Except.bind, pure, Except.pure]
  have hlen : ((List.replicate
      (⌈-((n : ℝ) * Real.log ((p : ℚ) : ℝ)) / Real.log 2 ^ 2⌉).toNat
      false).length : Int) =
      ⌈-((n : ℝ) * Real.log ((p : ℚ) : ℝ)) / Real.log 2 ^ 2⌉ := by
    rw [List.length_replicate]
    exact Int.toNat_of_nonneg (le_of_lt hceil)
  exact ⟨_, heq, rfl, rfl, hceil, rfl, hlen, rfl, rfl, rfl⟩

theorem claim_C7_witness :
    (0 < (3 : Int) ∧ 0 < (1/2 : ℚ) ∧ (1/2 : ℚ) < 1) ∧
    ∃ bf : BloomFilter, bloom_init 3 (1/2) = Except.ok bf ∧
      bf.size = ⌈-(((3 : Int) : ℝ) * Real.log (((1/2 : ℚ) : ℚ) : ℝ)) / Real.log 2 ^ 2⌉ ∧
      bf.num_hashes = ⌈((bf.size : ℝ) / ((3 : Int) : ℝ)) * Real.log 2⌉ ∧
      0 < bf.size ∧
      bf.bit_array = List.replicate bf.size.toNat false ∧
      (bf.bit_array.length : Int) = bf.size ∧
      bf.items_added = 0 ∧
      bf.expected_items = 3 ∧
      bf.false_positive_rate = 1/2 :=
  ⟨⟨by norm_num, by norm_num, by norm_num⟩,
    claim_C7_parameter_derivation 3 (1/2) (by norm_num) (by norm_num) (by norm_num)⟩

/-! ## Theorems: red-black tree -/

theorem zip_nil (t : Tree) : zip t [] = t := rfl

/-! ### Order facts about the string comparison -/

theorem char_eq_of_toNat_eq {a b : Char} (h : a.toNat = b.toNat) : a = b :=
  Char.eq_of_val_eq (UInt32.ext h)

theorem charListLt_irrefl (l : List Char) : charListLt l l = false := by
  induction l with
  | nil => rfl
  | cons a as ih => simp [charListLt, ih]

theorem charListLt_eq_of_not_lt :
    ∀ {as bs : List Char}, charListLt as bs = false → charListLt bs as = false →
      as = bs := by
  intro as
  induction as with
  | nil =>
    intro bs h1 h2
    cases bs with
    | nil => rfl
    | cons b bs => simp [charListLt] at h1
  | cons a as ih =>
    intro bs h1 h2
    cases bs with
    | nil => simp [charListLt] at h2
    | cons b bs =>
      by_cases hab : a.toNat < b.toNat
      · simp [charListLt, hab] at h1
      · by_cases hba : b.toNat < a.toNat
        · simp [charListLt, hba] at h2
        · have hchar : a = b := char_eq_of_toNat_eq (by omega)
          subst hchar
          simp only [charListLt, if_neg hab, if_neg hba] at h1 h2
          rw [ih h1 h2]

theorem charListLt_trans :
    ∀ {as bs cs : List Char}, charListLt as bs = true → charListLt bs cs = true →
      charListLt as cs = true := by
  intro as
  induction as with
  | nil =>
    intro bs cs h1 h2
    cases bs with
    | nil => simp [charListLt] at h1
    | cons b bs =>
      cases cs with
      | nil => simp [charListLt] at h2
      | cons c cs => rfl
  | cons a as ih =>
    intro bs cs h1 h2
    cases bs with
    | nil => simp [charListLt] at h1
    | cons b bs =>
      cases cs with
      | nil => simp [charListLt] at h2
      | cons c cs =>
        simp only [charListLt] at h1 h2 ⊢
        by_cases hab : a.toNat < b.toNat
        · by_cases hbc : b.toNat < c.toNat
          · rw [if_pos (by omega)]
          · by_cases hcb : c.toNat < b.toNat
            · rw [if_neg hbc, if_pos hcb] at h2
              cases h2
            · rw [if_pos (by omega)]
        · by_cases hba : b.toNat < a.toNat
          · rw [if_neg hab, if_pos hba] at h1
            cases h1
          · have hchar : a = b := char_eq_of_toNat_eq (by omega)
            subst hchar
            rw [if_neg hab, if_neg hba] at h1
            by_cases hbc : a.toNat < c.toNat
            · rw [if_pos hbc]
            · by_cases hcb : c.toNat < a.toNat
              · rw [if_neg hbc, if_pos hcb] at h2
                cases h2
              · rw [if_neg hbc, if_neg hcb] at h2 ⊢
                exact ih h1 h2

theorem strLt_irrefl (a : String) : strLt a a = false :=
  charListLt_irrefl a.data

theorem strLt_eq_of_not_lt {a b : String} (h1 : strLt a b = false)
    (h2 : strLt b a = false) : a = b := by
  have hdata : a.data = b.data := charListLt_eq_of_not_lt h1 h2
  cases a
  cases b
  exact congrArg String.mk hdata

theorem strLt_trans {a b c : String} (h1 : strLt a b = true)
    (h2 : strLt b c = true) : strLt a c = true :=
  charListLt_trans h1 h2

theorem strLt_asymm {a b : String} (h : strLt a b = true) : strLt b a = false := by
  by_contra hcon
  have h2 : strLt b a = true := by
    cases hba : strLt b a
    · exact absurd hba hcon
    · rfl
  have := strLt_trans h h2
  rw [strLt_irrefl] at this
  cases this

theorem strLt_ne {a b : String} (h : strLt a b = true) : a ≠ b := by
  rintro rfl
  rw [strLt_irrefl] at h
  cases h

/-! ### Red-black validity through the zipper -/

theorem attach_rootColor (p : PathElem) (t : Tree) :
    Tree.rootColor (attach p t) = p.color := by
  rcases p with ⟨dir, c, e, sib⟩
  cases dir <;> rfl

theorem attach_isRB_black {p : PathElem} (hc : p.color = Color.BLACK) {t : Tree}
    {h : Nat} (ht : IsRB t h) (hs : IsRB p.sibling h) :
    IsRB (attach p t) (h + 1) := by
  rcases p with ⟨dir, c, e, sib⟩
  obtain rfl : c = Color.BLACK := hc
  have hs' : IsRB sib h := hs
  cases dir
  · exact IsRB.black ht hs'
  · exact IsRB.black hs' ht

theorem attach_isRB_red {p : PathElem} (hc : p.color = Color.RED) {t : Tree}
    {h : Nat} (ht : IsRB t h) (hs : IsRB p.sibling h)
    (hroott : Tree.rootColor t = Color.BLACK)
    (hroots : Tree.rootColor p.sibling = Color.BLACK) :
    IsRB (attach p t) h := by
  rcases p with ⟨dir, c, e, sib⟩
  obtain rfl : c = Color.RED := hc
  have hs' : IsRB sib h := hs
  have hroots' : Tree.rootColor sib = Color.BLACK := hroots
  cases dir
  · exact IsRB.red ht hs' hroott hroots'
  · exact IsRB.red hs' ht hroots' hroott

theorem zip_isRB {path : List PathElem} {h H : Nat} {c : Color}
    (hctx : CtxOK path h H c) :
    ∀ {t : Tree}, IsRB t h → (c = Color.RED → Tree.rootColor t = Color.BLACK) →
      IsRB (zip t path) H := by
  induction hctx with
  | base =>
    intro t ht _
    exact ht
  | black hc hs hrest ih =>
    intro t ht _
    refine ih (attach_isRB_black hc ht hs) ?_
    intro _
    rw [attach_rootColor]
    exact hc
  | red hc hs hsroot hrest ih =>
    intro t ht hplug
    refine ih (attach_isRB_red hc ht hs (hplug rfl) hsroot) ?_
    intro hbad
    exact absurd hbad (by decide)

theorem paint_black_isRB {t : Tree} {h : Nat} (ht : IsRB t h) :
    ∃ h2, IsRB (Tree.paint Color.BLACK t) h2 ∧
      Tree.rootColor (Tree.paint Color.BLACK t) = Color.BLACK := by
  cases ht with
  | nil => exact ⟨1, IsRB.nil, rfl⟩
  | red hl hr cl cr => exact ⟨_, IsRB.black hl hr, rfl⟩
  | black hl hr => exact ⟨_, IsRB.black hl hr, rfl⟩

/-- Core fixup lemma: from a RED-rooted valid focus in a valid context,
`_insert_fixup` rebuilds a valid red-black tree with a BLACK root. -/
theorem insert_fixup_isRB (z : Tree) (path : List PathElem) :
    ∀ {h H : Nat} {c : Color}, CtxOK path h H c → IsRB z h →
      Tree.rootColor z = Color.RED →
      ∃ H2, IsRB (insert_fixup z path) H2 ∧
        Tree.rootColor (insert_fixup z path) = Color.BLACK := by
  induction z, path using insert_fixup.induct with
  | case1 z =>
    intro h H c hctx hz hzred
    exact paint_black_isRB hz
  | case2 z p hpred =>
    intro h H c hctx hz hzred
    cases hctx with
    | black hc hs hrest =>
      rw [hpred] at hc
      exact absurd hc (by decide)
    | red hc hs hsroot hrest =>
      cases hrest
      rcases p with ⟨dir, pc, pe, psib⟩
      obtain rfl : pc = Color.RED := hc
      have hs' : IsRB psib h := hs
      cases dir
      · exact ⟨h + 1, IsRB.black hz hs', rfl⟩
      · exact ⟨h + 1, IsRB.black hs' hz, rfl⟩
  | case3 z p hpnotred =>
    intro h H c hctx hz hzred
    cases hctx with
    | red hc hs hsroot hrest => exact absurd hc hpnotred
    | black hc hs hrest =>
      cases hrest
      rcases p with ⟨dir, pc, pe, psib⟩
      obtain rfl : pc = Color.BLACK := hc
      have hs' : IsRB psib h := hs
      cases dir
      · exact ⟨h + 1, IsRB.black hz hs', rfl⟩
      · exact ⟨h + 1, IsRB.black hs' hz, rfl⟩
  | case4 z p g rest hpred hured ih =>
    intro h H c hctx hz hzred
    cases hctx with
    | black hc hs hrest =>
      rw [hpred] at hc
      exact absurd hc (by decide)
    | red hc hs hsroot hrest =>
      cases hrest with
      | black hgc hgs hrest2 =>
        rcases p with ⟨pdir, pc, pe, psib⟩
        rcases g with ⟨gdir, gc, ge, gsib⟩
        obtain rfl : pc = Color.RED := hc
        obtain rfl : gc = Color.BLACK := hgc
        have hs' : IsRB psib h := hs
        have hsroot' : Tree.rootColor psib = Color.BLACK := hsroot
        have hgs' : IsRB gsib h := hgs
        have hured' : Tree.rootColor gsib = Color.RED := hured
        cases gsib with
        | nil => simp [Tree.rootColor] at hured'
        | node uc ul ue ur =>
          obtain rfl : uc = Color.RED := hured'
          cases hgs' with
          | red hul hur hulroot hurroot =>
            have hinner : IsRB (attach ⟨pdir, Color.BLACK, pe, psib⟩ z) (h + 1) :=
              attach_isRB_black rfl hz hs'
            have hinnerroot :
                Tree.rootColor (attach ⟨pdir, Color.BLACK, pe, psib⟩ z) = Color.BLACK := by
              rw [attach_rootColor]
            have huncleB : IsRB (Tree.node Color.BLACK ul ue ur) (h + 1) :=
              IsRB.black hul hur
            have hfocus : IsRB
                (attach ⟨gdir, Color.RED, ge, Tree.node Color.BLACK ul ue ur⟩
                  (attach ⟨pdir, Color.BLACK, pe, psib⟩ z)) (h + 1) :=
              attach_isRB_red rfl hinner huncleB hinnerroot rfl
            have hfocusroot : Tree.rootColor
                (attach ⟨gdir, Color.RED, ge, Tree.node Color.BLACK ul ue ur⟩
                  (attach ⟨pdir, Color.BLACK, pe, psib⟩ z)) = Color.RED := by
              rw [attach_rootColor]
            exact ih hrest2 hfocus hfocusroot
  | case5 z p g rest hpred hunotred hgdir =>
    intro h H c hctx hz hzred
    cases hctx with
    | black hc hs hrest =>
      rw [hpred] at hc
      exact absurd hc (by decide)
    | red hc hs hsroot hrest =>
      cases hrest with
      | black hgc hgs hrest2 =>
        rcases p with ⟨pdir, pc, pe, psib⟩
        rcases g with ⟨gdir, gc, ge, gsib⟩
        obtain rfl : pc = Color.RED := hc
        obtain rfl : gc = Color.BLACK := hgc
        obtain rfl : gdir = Dir.left := hgdir
        have hs' : IsRB psib h := hs
        have hsroot' : Tree.rootColor psib = Color.BLACK := hsroot
        have hgs' : IsRB gsib h := hgs
        have huncle : Tree.rootColor gsib = Color.BLACK := by
          cases hcol : Tree.rootColor gsib
          · exact absurd hcol hunotred
          · rfl
        simp only [insert_fixup, if_true]
        rw [if_neg hunotred]
        cases pdir with
        | left =>
          have hgsub : IsRB
              (Tree.node Color.BLACK z pe (Tree.node Color.RED psib ge gsib)) (h + 1) :=
            IsRB.black hz (IsRB.red hs' hgs' hsroot' huncle)
          have hzip := zip_isRB hrest2 hgsub (fun _ => rfl)
          exact paint_black_isRB hzip
        | right =>
          cases z with
          | nil => simp [Tree.rootColor] at hzred
          | node zc zl ze zr =>
            obtain rfl : zc = Color.RED := hzred
            cases hz with
            | red hzl hzr hcl hcr =>
              have hgsub : IsRB
                  (Tree.node Color.BLACK (Tree.node Color.RED psib pe zl) ze
                    (Tree.node Color.RED zr ge gsib)) (h + 1) :=
                IsRB.black (IsRB.red hs' hzl hsroot' hcl)
                  (IsRB.red hzr hgs' hcr huncle)
              have hzip := zip_isRB hrest2 hgsub (fun _ => rfl)
              exact paint_black_isRB hzip
  | case6 z p g rest hpred hunotred hgdir =>
    intro h H c hctx hz hzred
    cases hctx with
    | black hc hs hrest =>
      rw [hpred] at hc
      exact absurd hc (by decide)
    | red hc hs hsroot hrest =>
      cases hrest with
      | black hgc hgs hrest2 =>
        rcases p with ⟨pdir, pc, pe, psib⟩
        rcases g with ⟨gdir, gc, ge, gsib⟩
        obtain rfl : pc = Color.RED := hc
        obtain rfl : gc = Color.BLACK := hgc
        obtain rfl : gdir = Dir.right := hgdir
        have hs' : IsRB psib h := hs
        have hsroot' : Tree.rootColor psib = Color.BLACK := hsroot
        have hgs' : IsRB gsib h := hgs
        have huncle : Tree.rootColor gsib = Color.BLACK := by
          cases hcol : Tree.rootColor gsib
          · exact absurd hcol hunotred
          · rfl
        simp only [insert_fixup, if_true]
        rw [if_neg hunotred]
        cases pdir with
        | right =>
          have hgsub : IsRB
              (Tree.node Color.BLACK (Tree.node Color.RED gsib ge psib) pe z) (h + 1) :=
            IsRB.black (IsRB.red hgs' hs' huncle hsroot') hz
          have hzip := zip_isRB hrest2 hgsub (fun _ => rfl)
          exact paint_black_isRB hzip
        | left =>
          cases z with
          | nil => simp [Tree.rootColor] at hzred
          | node zc zl ze zr =>
            obtain rfl : zc = Color.RED := hzred
            cases hz with
            | red hzl hzr hcl hcr =>
              have hgsub : IsRB
                  (Tree.node Color.BLACK (Tree.node Color.RED gsib ge zl) ze
                    (Tree.node Color.RED zr pe psib)) (h + 1) :=
                IsRB.black (IsRB.red hgs' hzl huncle hcl)
                  (IsRB.red hzr hs' hcr hsroot')
              have hzip := zip_isRB hrest2 hgsub (fun _ => rfl)
              exact paint_black_isRB hzip
  | case7 z p g rest hpnotred =>
    intro h H c hctx hz hzred
    cases hctx with
    | red hc hs hsroot hrest => exact absurd hc hpnotred
    | black hc hs hrest =>
      have h1 : IsRB (attach p z) (h + 1) := attach_isRB_black hc hz hs
      have h2 := zip_isRB hrest h1
        (fun _ => by rw [attach_rootColor]; exact hc)
      simp only [insert_fixup]
      rw [if_neg hpnotred]
      exact paint_black_isRB h2

/-- The BST descent of `insert_domain`, when it falls off at a leaf,
produces a red-black-valid context expecting a fresh node of black
height 1. -/
theorem insertDescend_inl_ctx :
    ∀ (t : Tree) {d : String} {acc : List PathElem} {h H : Nat} {c : Color},
      IsRB t h → CtxOK acc h H c →
      (c = Color.RED → Tree.rootColor t = Color.BLACK) →
      ∀ {path : List PathElem}, insertDescend t d acc = Sum.inl path →
        ∃ c2, CtxOK path 1 H c2 := by
  intro t
  induction t with
  | nil =>
    intro d acc h H c ht hctx hplug path hdesc
    cases ht
    cases hdesc
    exact ⟨c, hctx⟩
  | node c0 l e r ihl ihr =>
    intro d acc h H c ht hctx hplug path hdesc
    simp only [insertDescend] at hdesc
    by_cases h1 : strLt d e.domain
    · rw [if_pos h1] at hdesc
      cases ht with
      | red hl hr cl cr =>
        have hcB : c = Color.BLACK := by
          cases c with
          | RED =>
            have := hplug rfl
            simp [Tree.rootColor] at this
          | BLACK => rfl
        subst hcB
        exact ihl hl (CtxOK.red rfl hr cr hctx) (fun _ => cl) hdesc
      | black hl hr =>
        exact ihl hl (CtxOK.black rfl hr hctx)
          (fun hbad => absurd hbad (by decide)) hdesc
    · rw [if_neg h1] at hdesc
      by_cases h2 : strLt e.domain d
      · rw [if_pos h2] at hdesc
        cases ht with
        | red hl hr cl cr =>
          have hcB : c = Color.BLACK := by
            cases c with
            | RED =>
              have := hplug rfl
              simp [Tree.rootColor] at this
            | BLACK => rfl
          subst hcB
          exact ihr hr (CtxOK.red rfl hl cl hctx) (fun _ => cr) hdesc
        | black hl hr =>
          exact ihr hr (CtxOK.black rfl hl hctx)
            (fun hbad => absurd hbad (by decide)) hdesc
      · rw [if_neg h2] at hdesc
        cases hdesc

/-- The descent-then-plug composition is the plain recursive BST leaf
attachment. -/
theorem insertDescend_inl_zip :
    ∀ (t : Tree) {d : String} {acc path : List PathElem},
      insertDescend t d acc = Sum.inl path →
      ∀ z : Tree, zip z path = zip (bstAttach t d z) acc := by
  intro t
  induction t with
  | nil =>
    intro d acc path hdesc z
    cases hdesc
    rfl
  | node c0 l e r ihl ihr =>
    intro d acc path hdesc z
    simp only [insertDescend] at hdesc
    by_cases h1 : strLt d e.domain
    · rw [if_pos h1] at hdesc
      rw [ihl hdesc z]
      simp only [bstAttach, if_pos h1]
      rfl
    · rw [if_neg h1] at hdesc
      by_cases h2 : strLt e.domain d
      · rw [if_pos h2] at hdesc
        rw [ihr hdesc z]
        simp only [bstAttach, if_neg h1, if_pos h2]
        rfl
      · rw [if_neg h2] at hdesc
        cases hdesc

/-- The descent of `insert_domain`, when it finds the domain, finds
exactly the node `search_domain` returns, and plugging a replacement
payload back is the plain recursive payload replacement. -/
theorem insertDescend_inr_spec :
    ∀ (t : Tree) {d : String} {acc path : List PathElem} {c : Color} {e : Entry}
      {l r : Tree},
      insertDescend t d acc = Sum.inr (path, c, e, l, r) →
      (∀ x : Entry, zip (Tree.node c l x r) path = zip (replaceFound t d x) acc) ∧
      e.domain = d ∧ search_domain t d = some e := by
  intro t
  induction t with
  | nil =>
    intro d acc path c e l r hdesc
    cases hdesc
  | node c0 l0 e0 r0 ihl ihr =>
    intro d acc path c e l r hdesc
    simp only [insertDescend] at hdesc
    by_cases h1 : strLt d e0.domain
    · rw [if_pos h1] at hdesc
      obtain ⟨hzip, hdom, hsearch⟩ := ihl hdesc
      refine ⟨fun x => ?_, hdom, ?_⟩
      · rw [hzip x]
        simp only [replaceFound, if_pos h1]
        rfl
      · have hne : d ≠ e0.domain := strLt_ne h1
        simp only [search_domain, if_neg hne, if_pos h1]
        exact hsearch
    · rw [if_neg h1] at hdesc
      by_cases h2 : strLt e0.domain d
      · rw [if_pos h2] at hdesc
        obtain ⟨hzip, hdom, hsearch⟩ := ihr hdesc
        refine ⟨fun x => ?_, hdom, ?_⟩
        · rw [hzip x]
          simp only [replaceFound, if_neg h1, if_pos h2]
          rfl
        · have hne : d ≠ e0.domain := fun hdd => strLt_ne h2 hdd.symm
          simp only [search_domain, if_neg hne, if_neg h1]
          exact hsearch
      · rw [if_neg h2] at hdesc
        cases hdesc
        have hdom : d = e0.domain := by
          cases hlt1 : strLt d e0.domain
          · cases hlt2 : strLt e0.domain d
            · exact strLt_eq_of_not_lt hlt1 hlt2
            · exact absurd hlt2 h2
          · exact absurd hlt1 h1
        refine ⟨fun x => ?_, hdom.symm, ?_⟩
        · simp only [replaceFound, if_neg h1, if_neg h2]
        · simp only [search_domain, if_pos hdom]

/-- Converse: a domain `search_domain` finds is found by the insert
descent, with the same payload. -/
theorem insertDescend_inr_of_search :
    ∀ (t : Tree) {d : String} {e : Entry}, search_domain t d = some e →
      ∀ acc, ∃ path c l r, insertDescend t d acc = Sum.inr (path, c, e, l, r) := by
  intro t
  induction t with
  | nil =>
    intro d e hsearch acc
    cases hsearch
  | node c0 l0 e0 r0 ihl ihr =>
    intro d e hsearch acc
    simp only [search_domain] at hsearch
    by_cases heq : d = e0.domain
    · rw [if_pos heq] at hsearch
      cases hsearch
      have hlt1 : strLt d e0.domain = false := by
        subst heq
        exact strLt_irrefl e0.domain
      have hlt2 : strLt e0.domain d = false := by
        subst heq
        exact strLt_irrefl e0.domain
      refine ⟨acc, c0, l0, r0, ?_⟩
      simp only [insertDescend, hlt1, hlt2]
      rfl
    · rw [if_neg heq] at hsearch
      by_cases hlt : strLt d e0.domain
      · rw [if_pos hlt] at hsearch
        obtain ⟨path, c, l, r, hd⟩ := ihl hsearch
          ({ dir := Dir.left, color := c0, entry := e0, sibling := r0 } :: acc)
        refine ⟨path, c, l, r, ?_⟩
        simp only [insertDescend, if_pos hlt]
        exact hd
      · rw [if_neg hlt] at hsearch
        have hgt : strLt e0.domain d = true := by
          cases hgt0 : strLt e0.domain d
          · have hlt0 : strLt d e0.domain = false := by
              cases hlt0 : strLt d e0.domain
              · rfl
              · exact absurd hlt0 hlt
            exact absurd (strLt_eq_of_not_lt hlt0 hgt0) heq
          · rfl
        obtain ⟨path, c, l, r, hd⟩ := ihr hsearch
          ({ dir := Dir.right, color := c0, entry := e0, sibling := l0 } :: acc)
        refine ⟨path, c, l, r, ?_⟩
        simp only [insertDescend, if_neg hlt, if_pos hgt]
        exact hd

theorem search_domain_some_domain {t : Tree} {d : String} {e : Entry}
    (h : search_domain t d = some e) : e.domain = d := by
  induction t with
  | nil => cases h
  | node c l e0 r ihl ihr =>
    simp only [search_domain] at h
    split at h
    · next heq =>
      cases h
      exact heq.symm
    · split at h
      · exact ihl h
      · exact ihr h

theorem search_domain_mem {t : Tree} {d : String} {e : Entry}
    (h : search_domain t d = some e) : e ∈ Tree.inorderEntries t := by
  induction t with
  | nil => cases h
  | node c l e0 r ihl ihr =>
    simp only [search_domain] at h
    simp only [Tree.inorderEntries, List.mem_append, List.mem_cons]
    split at h
    · cases h
      exact Or.inr (Or.inl rfl)
    · split at h
      · exact Or.inl (ihl h)
      · exact Or.inr (Or.inr (ihr h))

theorem increment_spam_reports_spec (t : Tree) (d : String) (a : Int) :
    (∀ e, search_domain t d = some e →
      (increment_spam_reports t d a).2 = some (max 0 (e.reputation_score - a * 5)) ∧
      search_domain (increment_spam_reports t d a).1 d =
        some { e with spam_reports := e.spam_reports + a,
                      reputation_score := max 0 (e.reputation_score - a * 5) }) ∧
    (search_domain t d = none → increment_spam_reports t d a = (t, none)) := by
  induction t with
  | nil => exact ⟨(fun e h => nomatch h), (fun _ => rfl)⟩
  | node c l e0 r ihl ihr =>
    by_cases hd : d = e0.domain
    · refine ⟨fun e he => ?_, fun hn => ?_⟩
      · simp only [search_domain, if_pos hd] at he
        cases he
        refine ⟨?_, ?_⟩ <;> simp [increment_spam_reports, if_pos hd, search_domain]
      · simp only [search_domain, if_pos hd] at hn
        exact absurd hn (Option.some_ne_none e0)
    · by_cases hlt : strLt d e0.domain
      · refine ⟨fun e he => ?_, fun hn => ?_⟩
        · simp only [search_domain, if_neg hd, if_pos hlt] at he
          have := (ihl.1 e he)
          simp only [increment_spam_reports, if_neg hd, if_pos hlt, search_domain]
          exact this
        · simp only [search_domain, if_neg hd, if_pos hlt] at hn
          have := ihl.2 hn
          simp only [increment_spam_reports, if_neg hd, if_pos hlt, this]
      · refine ⟨fun e he => ?_, fun hn => ?_⟩
        · simp only [search_domain, if_neg hd, if_neg hlt] at he
          have := (ihr.1 e he)
          simp only [increment_spam_reports, if_neg hd, if_neg hlt, search_domain]
          exact this
        · simp only [search_domain, if_neg hd, if_neg hlt] at hn
          have := ihr.2 hn
          simp only [increment_spam_reports, if_neg hd, if_neg hlt, this]

theorem increment_legitimate_reports_spec (t : Tree) (d : String) (a : Int) :
    (∀ e, search_domain t d = some e →
      (increment_legitimate_reports t d a).2 =
        some (min 100 (e.reputation_score + a * 3)) ∧
      search_domain (increment_legitimate_reports t d a).1 d =
        some { e with legitimate_reports := e.legitimate_reports + a,
                      reputation_score := min 100 (e.reputation_score + a * 3) }) ∧
    (search_domain t d = none → increment_legitimate_reports t d a = (t, none)) := by
  induction t with
  | nil => exact ⟨(fun e h => nomatch h), (fun _ => rfl)⟩
  | node c l e0 r ihl ihr =>
    by_cases hd : d = e0.domain
    · refine ⟨fun e he => ?_, fun hn => ?_⟩
      · simp only [search_domain, if_pos hd] at he
        cases he
        refine ⟨?_, ?_⟩ <;>
          simp [increment_legitimate_reports, if_pos hd, search_domain]
      · simp only [search_domain, if_pos hd] at hn
        exact absurd hn (Option.some_ne_none e0)
    · by_cases hlt : strLt d e0.domain
      · refine ⟨fun e he => ?_, fun hn => ?_⟩
        · simp only [search_domain, if_neg hd, if_pos hlt] at he
          have := (ihl.1 e he)
          simp only [increment_legitimate_reports, if_neg hd, if_pos hlt, search_domain]
          exact this
        · simp only [search_domain, if_neg hd, if_pos hlt] at hn
          have := ihl.2 hn
          simp only [increment_legitimate_reports, if_neg hd, if_pos hlt, this]
      · refine ⟨fun e he => ?_, fun hn => ?_⟩
        · simp only [search_domain, if_neg hd, if_neg hlt] at he
          have := (ihr.1 e he)
          simp only [increment_legitimate_reports, if_neg hd, if_neg hlt, search_domain]
          exact this
        · simp only [search_domain, if_neg hd, if_neg hlt] at hn
          have := ihr.2 hn
          simp only [increment_legitimate_reports, if_neg hd, if_neg hlt, this]

/-- Claim C4: on a present domain, `increment_spam_reports(d, a)` adds
`a` to `spam_report_count` and lowers `reputation_score` by `a×5`
clamped to `≥ 0` (returning the new score);
`increment_legitimate_reports(d, a)` adds `a` to
`legitimate_report_count` and raises `reputation_score` by `a×3`
clamped to `≤ 100`; on an absent domain both return the not-found
result with the tree untouched. -/
theorem claim_C4_report_updates (t : Tree) (d : String) (a : Int) :
    (∀ e, search_domain t d = some e →
      ((increment_spam_reports t d a).2 = some (max 0 (e.reputation_score - a * 5)) ∧
        search_domain (increment_spam_reports t d a).1 d =
          some { e with spam_reports := e.spam_reports + a,
                        reputation_score := max 0 (e.reputation_score - a * 5) }) ∧
      ((increment_legitimate_reports t d a).2 =
          some (min 100 (e.reputation_score + a * 3)) ∧
        search_domain (increment_legitimate_reports t d a).1 d =
          some { e with legitimate_reports := e.legitimate_reports + a,
                        reputation_score := min 100 (e.reputation_score + a * 3) })) ∧
    (search_domain t d = none →
      increment_spam_reports t d a = (t, none) ∧
      increment_legitimate_reports t d a = (t, none)) :=
  ⟨fun e he => ⟨(increment_spam_reports_spec t d a).1 e he,
      (increment_legitimate_reports_spec t d a).1 e he⟩,
    fun hn => ⟨(increment_spam_reports_spec t d a).2 hn,
      (increment_legitimate_reports_spec t d a).2 hn⟩⟩

theorem claim_C4_witness :
    (search_domain (runInserts [("a.com", 50)]).root "a.com" =
        some { domain := "a.com", reputation_score := 50,
               spam_reports := 0, legitimate_reports := 0 } ∧
      search_domain (runInserts [("a.com", 50)]).root "b.com" = none) ∧
    ((increment_spam_reports (runInserts [("a.com", 50)]).root "a.com" 2).2 =
        some (max 0 (50 - 2 * 5)) ∧
      search_domain
        (increment_spam_reports (runInserts [("a.com", 50)]).root "a.com" 2).1
        "a.com" =
        some { domain := "a.com", reputation_score := max 0 (50 - 2 * 5),
               spam_reports := 0 + 2, legitimate_reports := 0 }) ∧
    increment_legitimate_reports (runInserts [("a.com", 50)]).root "b.com" 1 =
      ((runInserts [("a.com", 50)]).root, none) :=
  ⟨⟨by decide, by decide⟩,
    ((claim_C4_report_updates (runInserts [("a.com", 50)]).root "a.com" 2).1
      { domain := "a.com", reputation_score := 50,
        spam_reports := 0, legitimate_reports := 0 } (by decide)).1,
    ((claim_C4_report_updates (runInserts [("a.com", 50)]).root "b.com" 1).2
      (by decide)).2⟩

/-! ### Duplicate insert (claim C6) -/

theorem skeleton_replaceFound (t : Tree) {d : String} (x : Entry)
    (hx : x.domain = d) : Tree.skeleton (replaceFound t d x) = Tree.skeleton t := by
  induction t with
  | nil => rfl
  | node c l e r ihl ihr =>
    simp only [replaceFound]
    by_cases h1 : strLt d e.domain
    · rw [if_pos h1]
      simp only [Tree.skeleton, ihl]
    · rw [if_neg h1]
      by_cases h2 : strLt e.domain d
      · rw [if_pos h2]
        simp only [Tree.skeleton, ihr]
      · rw [if_neg h2]
        have hde : d = e.domain := by
          cases hlt1 : strLt d e.domain
          · cases hlt2 : strLt e.domain d
            · exact strLt_eq_of_not_lt hlt1 hlt2
            · exact absurd hlt2 h2
          · exact absurd hlt1 h1
        simp only [Tree.skeleton, hx, hde]

theorem search_replaceFound_self (t : Tree) {d : String} (x : Entry) {e : Entry}
    (hx : x.domain = d) (hsearch : search_domain t d = some e) :
    search_domain (replaceFound t d x) d = some x := by
  induction t with
  | nil => cases hsearch
  | node c l e0 r ihl ihr =>
    by_cases heq : d = e0.domain
    · have h1 : ¬strLt d e0.domain = true := by
        rw [← heq, strLt_irrefl]
        simp
      have h2 : ¬strLt e0.domain d = true := by
        rw [← heq]
        rw [strLt_irrefl]
        simp
      simp only [replaceFound, if_neg h1, if_neg h2]
      simp only [search_domain, if_pos hx.symm]
    · simp only [search_domain, if_neg heq] at hsearch
      by_cases h1 : strLt d e0.domain
      · rw [if_pos h1] at hsearch
        simp only [replaceFound, if_pos h1]
        simp only [search_domain, if_neg heq, if_pos h1]
        exact ihl hsearch
      · rw [if_neg h1] at hsearch
        have h2 : strLt e0.domain d = true := by
          cases hgt : strLt e0.domain d
          · have hlt0 : strLt d e0.domain = false := by
              cases hlt0 : strLt d e0.domain
              · rfl
              · exact absurd hlt0 h1
            exact absurd (strLt_eq_of_not_lt hlt0 hgt) heq
          · rfl
        simp only [replaceFound, if_neg h1, if_pos h2]
        simp only [search_domain, if_neg heq, if_neg h1]
        exact ihr hsearch

theorem search_replaceFound_other (t : Tree) {d : String} (x : Entry)
    (hx : x.domain = d) (x' : String) (hne : x' ≠ d) :
    search_domain (replaceFound t d x) x' = search_domain t x' := by
  induction t with
  | nil => rfl
  | node c l e0 r ihl ihr =>
    simp only [replaceFound]
    by_cases h1 : strLt d e0.domain
    · rw [if_pos h1]
      simp only [search_domain, ihl]
    · rw [if_neg h1]
      by_cases h2 : strLt e0.domain d
      · rw [if_pos h2]
        simp only [search_domain, ihr]
      · rw [if_neg h2]
        have hde : d = e0.domain := by
          cases hlt1 : strLt d e0.domain
          · cases hlt2 : strLt e0.domain d
            · exact strLt_eq_of_not_lt hlt1 hlt2
            · exact absurd hlt2 h2
          · exact absurd hlt1 h1
        simp only [search_domain, hx, ← hde]
        rw [if_neg hne, if_neg hne]

/-- Claim C6: inserting an already-present domain overwrites only that
node's `reputation_score` and returns the (updated) existing entry; the
tree keeps its size, shape, colours and every key, the entry's report
counters are not reset, and every other domain's entry is untouched. -/
theorem claim_C6_duplicate_insert (st : RBState) (d : String) (s : Int)
    (e : Entry) (hfound : search_domain st.root d = some e) :
    (insert_domain st d s).2 = { e with reputation_score := s } ∧
    (insert_domain st d s).1.size = st.size ∧
    Tree.skeleton (insert_domain st d s).1.root = Tree.skeleton st.root ∧
    search_domain (insert_domain st d s).1.root d =
      some { e with reputation_score := s } ∧
    ∀ x, x ≠ d → search_domain (insert_domain st d s).1.root x =
      search_domain st.root x := by
  obtain ⟨path, c, l, r, hdesc⟩ := insertDescend_inr_of_search st.root hfound []
  obtain ⟨hzip, hdom, _⟩ := insertDescend_inr_spec st.root hdesc
  have hroot : (insert_domain st d s).1.root =
      replaceFound st.root d { e with reputation_score := s } := by
    simp only [insert_domain, hdesc]
    exact hzip { e with reputation_score := s }
  have hx : ({ e with reputation_score := s } : Entry).domain = d := hdom
  refine ⟨?_, ?_, ?_, ?_, ?_⟩
  · simp only [insert_domain, hdesc]
  · simp only [insert_domain, hdesc]
  · rw [hroot]
    exact skeleton_replaceFound st.root _ hx
  · rw [hroot]
    exact search_replaceFound_self st.root _ hx hfound
  · intro x hne
    rw [hroot]
    exact search_replaceFound_other st.root _ hx x hne

theorem claim_C6_witness :
    search_domain (runInserts [("b.com", 50), ("a.com", 80)]).root "a.com" =
      some { domain := "a.com", reputation_score := 80,
             spam_reports := 0, legitimate_reports := 0 } ∧
    ((insert_domain (runInserts [("b.com", 50), ("a.com", 80)]) "a.com" 5).2 =
        { domain := "a.com", reputation_score := 5,
          spam_reports := 0, legitimate_reports := 0 } ∧
      (insert_domain (runInserts [("b.com", 50), ("a.com", 80)]) "a.com" 5).1.size =
        (runInserts [("b.com", 50), ("a.com", 80)]).size ∧
      Tree.skeleton
          (insert_domain (runInserts [("b.com", 50), ("a.com", 80)]) "a.com" 5).1.root =
        Tree.skeleton (runInserts [("b.com", 50), ("a.com", 80)]).root ∧
      search_domain
          (insert_domain (runInserts [("b.com", 50), ("a.com", 80)]) "a.com" 5).1.root
          "a.com" =
        some { domain := "a.com", reputation_score := 5,
               spam_reports := 0, legitimate_reports := 0 } ∧
      ∀ x, x ≠ "a.com" →
        search_domain
            (insert_domain (runInserts [("b.com", 50), ("a.com", 80)]) "a.com" 5).1.root
            x =
          search_domain (runInserts [("b.com", 50), ("a.com", 80)]).root x) :=
  ⟨by decide,
    claim_C6_duplicate_insert (runInserts [("b.com", 50), ("a.com", 80)]) "a.com" 5
      { domain := "a.com", reputation_score := 80,
        spam_reports := 0, legitimate_reports := 0 } (by decide)⟩

/-! ### From `IsRB` to the code's own verification procedures -/

theorem isRB_verifyNoRedRed {t : Tree} {h : Nat} (ht : IsRB t h) :
    Tree.verifyNoRedRed t = true := by
  induction ht with
  | nil => rfl
  | red hl hr cl cr ihl ihr =>
    simp [Tree.verifyNoRedRed, cl, cr, ihl, ihr]
  | black hl hr ihl ihr =>
    simp [Tree.verifyNoRedRed, ihl, ihr]

theorem isRB_getBlackHeight {t : Tree} {h : Nat} (ht : IsRB t h) :
    Tree.getBlackHeight t = (h : Int) := by
  induction ht with
  | nil => rfl
  | red hl hr cl cr ihl ihr =>
    simp only [Tree.getBlackHeight, ihl, ihr]
    rw [if_neg (by omega), if_neg (by decide)]
  | black hl hr ihl ihr =>
    simp only [Tree.getBlackHeight, ihl, ihr]
    rw [if_neg (by omega), if_pos trivial]
    push_cast
    ring

theorem rootBlackOk_of_rootColor {t : Tree}
    (h : Tree.rootColor t = Color.BLACK) : Tree.rootBlackOk t = true := by
  cases t with
  | nil => rfl
  | node c l e r =>
    have : c = Color.BLACK := h
    simp [Tree.rootBlackOk, this]

/-! ### In-order sequence through the fixup -/

theorem paint_inorder (c : Color) (t : Tree) :
    Tree.inorderEntries (Tree.paint c t) = Tree.inorderEntries t := by
  cases t <;> rfl

theorem zip_inorder_congr {t1 t2 : Tree}
    (h : Tree.inorderEntries t1 = Tree.inorderEntries t2) :
    ∀ path : List PathElem,
      Tree.inorderEntries (zip t1 path) = Tree.inorderEntries (zip t2 path) := by
  intro path
  induction path generalizing t1 t2 with
  | nil => exact h
  | cons p rest ih =>
    show Tree.inorderEntries (zip (attach p t1) rest) =
      Tree.inorderEntries (zip (attach p t2) rest)
    apply ih
    rcases p with ⟨dir, c, e, sib⟩
    cases dir <;> simp [attach, Tree.inorderEntries, h]

theorem zip_inorder_mem {t : Tree} {x : Entry}
    (hx : x ∈ Tree.inorderEntries t) :
    ∀ path : List PathElem, x ∈ Tree.inorderEntries (zip t path) := by
  intro path
  induction path generalizing t with
  | nil => exact hx
  | cons p rest ih =>
    show x ∈ Tree.inorderEntries (zip (attach p t) rest)
    apply ih
    rcases p with ⟨dir, c, e, sib⟩
    cases dir <;>
      simp only [attach, Tree.inorderEntries, List.mem_append, List.mem_cons]
    · exact Or.inl hx
    · exact Or.inr (Or.inr hx)

/-- `_insert_fixup` only rotates and recolours: the in-order sequence
of payloads is exactly that of plugging the new node in unrotated. -/
theorem insert_fixup_inorder (z : Tree) (path : List PathElem) :
    Tree.inorderEntries (insert_fixup z path) =
      Tree.inorderEntries (zip z path) := by
  induction z, path using insert_fixup.induct with
  | case1 z => exact paint_inorder _ _
  | case2 z p hpred =>
    simp only [insert_fixup, if_pos hpred]
    exact paint_inorder _ _
  | case3 z p hpnotred =>
    simp only [insert_fixup, if_neg hpnotred]
    exact paint_inorder _ _
  | case4 z p g rest hpred hured ih =>
    simp only [insert_fixup, if_pos hpred, if_pos hured]
    rw [ih]
    show Tree.inorderEntries (zip _ rest) =
      Tree.inorderEntries (zip (attach g (attach p z)) rest)
    apply zip_inorder_congr
    rcases p with ⟨pdir, pc, pe, psib⟩
    rcases g with ⟨gdir, gc, ge, gsib⟩
    cases pdir <;> cases gdir <;>
      simp [attach, Tree.inorderEntries, paint_inorder]
  | case5 z p g rest hpred hunotred hgdir =>
    simp only [insert_fixup, if_pos hpred, if_neg hunotred]
    rcases p with ⟨pdir, pc, pe, psib⟩
    rcases g with ⟨gdir, gc, ge, gsib⟩
    obtain rfl : gdir = Dir.left := hgdir
    show Tree.inorderEntries (Tree.paint Color.BLACK (zip _ rest)) = _
    rw [paint_inorder]
    show Tree.inorderEntries (zip _ rest) =
      Tree.inorderEntries (zip (attach ⟨Dir.left, gc, ge, gsib⟩
        (attach ⟨pdir, pc, pe, psib⟩ z)) rest)
    apply zip_inorder_congr
    cases pdir <;> cases z <;>
      simp [attach, left_rotate, right_rotate, Tree.paint, Tree.inorderEntries,
        List.append_assoc]
  | case6 z p g rest hpred hunotred hgdir =>
    simp only [insert_fixup, if_pos hpred, if_neg hunotred]
    rcases p with ⟨pdir, pc, pe, psib⟩
    rcases g with ⟨gdir, gc, ge, gsib⟩
    obtain rfl : gdir = Dir.right := hgdir
    show Tree.inorderEntries (Tree.paint Color.BLACK (zip _ rest)) = _
    rw [paint_inorder]
    show Tree.inorderEntries (zip _ rest) =
      Tree.inorderEntries (zip (attach ⟨Dir.right, gc, ge, gsib⟩
        (attach ⟨pdir, pc, pe, psib⟩ z)) rest)
    apply zip_inorder_congr
    cases pdir <;> cases z <;>
      simp [attach, left_rotate, right_rotate, Tree.paint, Tree.inorderEntries,
        List.append_assoc]
  | case7 z p g rest hpnotred =>
    simp only [insert_fixup, if_neg hpnotred]
    exact paint_inorder _ _

/-! ### Ordering -/

theorem inorderDomains_node (c : Color) (l : Tree) (e : Entry) (r : Tree) :
    Tree.inorderDomains (Tree.node c l e r) =
      Tree.inorderDomains l ++ e.domain :: Tree.inorderDomains r := by
  simp [Tree.inorderDomains, Tree.inorderEntries]

theorem Ordd_mem_bounds :
    ∀ (t : Tree) {lo hi : Option String}, Ordd lo hi t →
      ∀ {x : Entry}, x ∈ Tree.inorderEntries t →
        OptLB lo x.domain ∧ OptUB hi x.domain := by
  intro t
  induction t with
  | nil =>
    intro lo hi _ x hx
    cases hx
  | node c l e r ihl ihr =>
    intro lo hi hord x hx
    obtain ⟨h1, h2, h3, h4⟩ := hord
    simp only [Tree.inorderEntries, List.mem_append, List.mem_cons] at hx
    rcases hx with hx | hx | hx
    · obtain ⟨hl1, hl2⟩ := ihl h3 hx
      refine ⟨hl1, ?_⟩
      cases hi with
      | none => trivial
      | some b => exact strLt_trans hl2 h2
    · subst hx
      exact ⟨h1, h2⟩
    · obtain ⟨hr1, hr2⟩ := ihr h4 hx
      refine ⟨?_, hr2⟩
      cases lo with
      | none => trivial
      | some b => exact strLt_trans h1 hr1

theorem Ordd_bstAttach :
    ∀ (t : Tree) {lo hi : Option String}, Ordd lo hi t →
      ∀ {d : String}, OptLB lo d → OptUB hi d →
        ∀ (c : Color) (eNew : Entry), eNew.domain = d →
          Ordd lo hi (bstAttach t d (Tree.node c Tree.nil eNew Tree.nil)) := by
  intro t
  induction t with
  | nil =>
    intro lo hi _ d hlo hhi c eNew hdom
    show Ordd lo hi (Tree.node c Tree.nil eNew Tree.nil)
    refine ⟨?_, ?_, trivial, trivial⟩
    · rw [hdom]
      exact hlo
    · rw [hdom]
      exact hhi
  | node c0 l e r ihl ihr =>
    intro lo hi hord d hlo hhi c eNew hdom
    obtain ⟨h1, h2, h3, h4⟩ := hord
    by_cases hlt : strLt d e.domain
    · simp only [bstAttach, if_pos hlt]
      exact ⟨h1, h2, ihl h3 hlo hlt c eNew hdom, h4⟩
    · simp only [bstAttach, if_neg hlt]
      by_cases hgt : strLt e.domain d
      · simp only [if_pos hgt]
        exact ⟨h1, h2, h3, ihr h4 hgt hhi c eNew hdom⟩
      · simp only [if_neg hgt]
        exact ⟨h1, h2, h3, h4⟩

theorem bstAttach_inorder_subset :
    ∀ (t : Tree) {d : String} {z : Tree} {x : Entry},
      x ∈ Tree.inorderEntries (bstAttach t d z) →
      x ∈ Tree.inorderEntries t ∨ x ∈ Tree.inorderEntries z := by
  intro t
  induction t with
  | nil =>
    intro d z x hx
    exact Or.inr hx
  | node c l e r ihl ihr =>
    intro d z x hx
    simp only [bstAttach] at hx
    by_cases hlt : strLt d e.domain
    · rw [if_pos hlt] at hx
      simp only [Tree.inorderEntries, List.mem_append, List.mem_cons] at hx ⊢
      rcases hx with hx | hx | hx
      · rcases ihl hx with hx | hx
        · exact Or.inl (Or.inl hx)
        · exact Or.inr hx
      · exact Or.inl (Or.inr (Or.inl hx))
      · exact Or.inl (Or.inr (Or.inr hx))
    · rw [if_neg hlt] at hx
      by_cases hgt : strLt e.domain d
      · rw [if_pos hgt] at hx
        simp only [Tree.inorderEntries, List.mem_append, List.mem_cons] at hx ⊢
        rcases hx with hx | hx | hx
        · exact Or.inl (Or.inl hx)
        · exact Or.inl (Or.inr (Or.inl hx))
        · rcases ihr hx with hx | hx
          · exact Or.inl (Or.inr (Or.inr hx))
          · exact Or.inr hx
      · rw [if_neg hgt] at hx
        exact Or.inl hx

theorem replaceFound_rootColor (t : Tree) (d : String) (x : Entry) :
    Tree.rootColor (replaceFound t d x) = Tree.rootColor t := by
  cases t with
  | nil => rfl
  | node c l e r =>
    simp only [replaceFound]
    split
    · rfl
    · split <;> rfl

theorem replaceFound_isRB {t : Tree} {h : Nat} (ht : IsRB t h) (d : String)
    (x : Entry) : IsRB (replaceFound t d x) h := by
  induction ht with
  | nil => exact IsRB.nil
  | red hl hr cl cr ihl ihr =>
    simp only [replaceFound]
    split
    · exact IsRB.red ihl hr (by rw [replaceFound_rootColor]; exact cl) cr
    · split
      · exact IsRB.red hl ihr cl (by rw [replaceFound_rootColor]; exact cr)
      · exact IsRB.red hl hr cl cr
  | black hl hr ihl ihr =>
    simp only [replaceFound]
    split
    · exact IsRB.black ihl hr
    · split
      · exact IsRB.black hl ihr
      · exact IsRB.black hl hr

theorem replaceFound_Ordd :
    ∀ (t : Tree) {lo hi : Option String}, Ordd lo hi t →
      ∀ {d : String} {x : Entry}, x.domain = d →
        Ordd lo hi (replaceFound t d x) := by
  intro t
  induction t with
  | nil =>
    intro lo hi _ d x _
    trivial
  | node c l e r ihl ihr =>
    intro lo hi hord d x hx
    obtain ⟨h1, h2, h3, h4⟩ := hord
    simp only [replaceFound]
    by_cases hlt : strLt d e.domain
    · rw [if_pos hlt]
      exact ⟨h1, h2, ihl h3 hx, h4⟩
    · rw [if_neg hlt]
      by_cases hgt : strLt e.domain d
      · rw [if_pos hgt]
        exact ⟨h1, h2, h3, ihr h4 hx⟩
      · rw [if_neg hgt]
        have hde : d = e.domain := by
          cases hlt1 : strLt d e.domain
          · cases hlt2 : strLt e.domain d
            · exact strLt_eq_of_not_lt hlt1 hlt2
            · exact absurd hlt2 hgt
          · exact absurd hlt1 hlt
        have hxe : x.domain = e.domain := hx.trans hde
        refine ⟨?_, ?_, ?_, ?_⟩
        · rw [hxe]
          exact h1
        · rw [hxe]
          exact h2
        · rw [hxe]
          exact h3
        · rw [hxe]
          exact h4

theorem replaceFound_domains (t : Tree) {d : String} {x : Entry}
    (hx : x.domain = d) :
    Tree.inorderDomains (replaceFound t d x) = Tree.inorderDomains t := by
  induction t with
  | nil => rfl
  | node c l e r ihl ihr =>
    simp only [replaceFound]
    by_cases hlt : strLt d e.domain
    · rw [if_pos hlt, inorderDomains_node, inorderDomains_node, ihl]
    · rw [if_neg hlt]
      by_cases hgt : strLt e.domain d
      · rw [if_pos hgt, inorderDomains_node, inorderDomains_node, ihr]
      · rw [if_neg hgt, inorderDomains_node, inorderDomains_node]
        have hde : d = e.domain := by
          cases hlt1 : strLt d e.domain
          · cases hlt2 : strLt e.domain d
            · exact strLt_eq_of_not_lt hlt1 hlt2
            · exact absurd hlt2 hgt
          · exact absurd hlt1 hlt
        rw [hx, hde]

theorem Ordd_iff :
    ∀ (t : Tree) (lo hi : Option String),
      Ordd lo hi t ↔
        (List.Pairwise (fun a b => strLt a b = true) (Tree.inorderDomains t) ∧
          ∀ x ∈ Tree.inorderDomains t, OptLB lo x ∧ OptUB hi x) := by
  intro t
  induction t with
  | nil =>
    intro lo hi
    simp [Ordd, Tree.inorderDomains, Tree.inorderEntries]
  | node c l e r ihl ihr =>
    intro lo hi
    rw [inorderDomains_node]
    constructor
    · rintro ⟨h1, h2, h3, h4⟩
      have hl := (ihl lo (some e.domain)).mp h3
      have hr := (ihr (some e.domain) hi).mp h4
      constructor
      · rw [List.pairwise_append, List.pairwise_cons]
        refine ⟨hl.1, ⟨fun b hb => (hr.2 b hb).1, hr.1⟩, ?_⟩
        intro a ha b hb
        rcases List.mem_cons.mp hb with rfl | hb
        · exact (hl.2 a ha).2
        · exact strLt_trans (hl.2 a ha).2 (hr.2 b hb).1
      · intro x hx
        rcases List.mem_append.mp hx with hx | hx
        · obtain ⟨hxl, hxu⟩ := hl.2 x hx
          refine ⟨hxl, ?_⟩
          cases hi with
          | none => trivial
          | some b => exact strLt_trans hxu h2
        · rcases List.mem_cons.mp hx with rfl | hx
          · exact ⟨h1, h2⟩
          · obtain ⟨hxl, hxu⟩ := hr.2 x hx
            refine ⟨?_, hxu⟩
            cases lo with
            | none => trivial
            | some b => exact strLt_trans h1 hxl
    · rintro ⟨hpw, hb⟩
      rw [List.pairwise_append, List.pairwise_cons] at hpw
      obtain ⟨hpl, ⟨hdr, hpr⟩, hcross⟩ := hpw
      have hdommem : e.domain ∈
          Tree.inorderDomains l ++ e.domain :: Tree.inorderDomains r := by
        simp
      refine ⟨(hb e.domain hdommem).1, (hb e.domain hdommem).2, ?_, ?_⟩
      · refine (ihl lo (some e.domain)).mpr ⟨hpl, fun x hx => ⟨?_, ?_⟩⟩
        · exact (hb x (by simp [hx])).1
        · exact hcross x hx e.domain (by simp)
      · refine (ihr (some e.domain) hi).mpr ⟨hpr, fun x hx => ⟨?_, ?_⟩⟩
        · exact hdr x hx
        · exact (hb x (by simp [hx])).2

theorem Ordered_iff_pairwise (t : Tree) :
    Ordered t ↔
      List.Pairwise (fun a b => strLt a b = true) (Tree.inorderDomains t) := by
  rw [Ordered]
  rw [Ordd_iff]
  constructor
  · exact fun h => h.1
  · exact fun h => ⟨h, fun x _ => ⟨trivial, trivial⟩⟩

theorem search_domain_isSome_of_mem :
    ∀ (t : Tree) {lo hi : Option String}, Ordd lo hi t →
      ∀ {d : String}, d ∈ Tree.inorderDomains t →
        (search_domain t d).isSome = true := by
  intro t
  induction t with
  | nil =>
    intro lo hi _ d hd
    simp [Tree.inorderDomains, Tree.inorderEntries] at hd
  | node c l e r ihl ihr =>
    intro lo hi hord d hd
    obtain ⟨h1, h2, h3, h4⟩ := hord
    rw [inorderDomains_node] at hd
    rcases List.mem_append.mp hd with hd | hd
    · obtain ⟨ent, hent, hdom⟩ := List.mem_map.mp hd
      have hub : strLt d e.domain = true := by
        have := (Ordd_mem_bounds l h3 hent).2
        rw [hdom] at this
        exact this
      have hne : d ≠ e.domain := strLt_ne hub
      simp only [search_domain, if_neg hne, if_pos hub]
      exact ihl h3 hd
    · rcases List.mem_cons.mp hd with rfl | hd
      · simp [search_domain]
      · obtain ⟨ent, hent, hdom⟩ := List.mem_map.mp hd
        have hlb : strLt e.domain d = true := by
          have := (Ordd_mem_bounds r h4 hent).1
          rw [hdom] at this
          exact this
        have hne : d ≠ e.domain := (strLt_ne hlb).symm
        have hnlt : ¬strLt d e.domain = true := by
          rw [strLt_asymm hlb]
          simp
        simp only [search_domain, if_neg hne, if_neg hnlt]
        exact ihr h4 hd

theorem search_domain_none_of_not_mem {t : Tree} {d : String}
    (h : d ∉ Tree.inorderDomains t) : search_domain t d = none := by
  cases hs : search_domain t d with
  | none => rfl
  | some e =>
    exfalso
    apply h
    rw [← search_domain_some_domain hs]
    exact List.mem_map_of_mem Entry.domain (search_domain_mem hs)

/-! ### The full invariant through `insert_domain` -/

theorem validTree_nil : ValidTree Tree.nil := ⟨⟨1, IsRB.nil⟩, rfl, trivial⟩

theorem insert_domain_valid (st : RBState) (d : String) (s : Int)
    (hv : ValidTree st.root) : ValidTree (insert_domain st d s).1.root := by
  obtain ⟨⟨h, ht⟩, hroot, hord⟩ := hv
  cases hdesc : insertDescend st.root d [] with
  | inr res =>
    obtain ⟨path, c, e, l, r⟩ := res
    obtain ⟨hzip, hdom, hsearch⟩ := insertDescend_inr_spec st.root hdesc
    have hx : ({ e with reputation_score := s } : Entry).domain = d := hdom
    have hroot' : (insert_domain st d s).1.root =
        replaceFound st.root d { e with reputation_score := s } := by
      simp only [insert_domain, hdesc]
      exact hzip _
    rw [hroot']
    exact ⟨⟨h, replaceFound_isRB ht d _⟩,
      by rw [replaceFound_rootColor]; exact hroot,
      replaceFound_Ordd st.root hord hx⟩
  | inl path =>
    have hroot' : (insert_domain st d s).1.root =
        insert_fixup (Tree.node Color.RED Tree.nil
          { domain := d, reputation_score := s,
            spam_reports := 0, legitimate_reports := 0 } Tree.nil) path := by
      simp only [insert_domain, hdesc]
    obtain ⟨c2, hctx⟩ :=
      insertDescend_inl_ctx st.root ht CtxOK.base (fun _ => hroot) hdesc
    have hzrb : IsRB (Tree.node Color.RED Tree.nil
        { domain := d, reputation_score := s,
          spam_reports := 0, legitimate_reports := 0 } Tree.nil) 1 :=
      IsRB.red IsRB.nil IsRB.nil rfl rfl
    obtain ⟨H2, hrb, hrootB⟩ := insert_fixup_isRB _ path hctx hzrb rfl
    refine ⟨⟨H2, by rw [hroot']; exact hrb⟩, by rw [hroot']; exact hrootB, ?_⟩
    rw [hroot', Ordered_iff_pairwise]
    have hio : Tree.inorderDomains (insert_fixup (Tree.node Color.RED Tree.nil
        { domain := d, reputation_score := s,
          spam_reports := 0, legitimate_reports := 0 } Tree.nil) path) =
        Tree.inorderDomains (bstAttach st.root d (Tree.node Color.RED Tree.nil
          { domain := d, reputation_score := s,
            spam_reports := 0, legitimate_reports := 0 } Tree.nil)) := by
      unfold Tree.inorderDomains
      rw [insert_fixup_inorder, insertDescend_inl_zip st.root hdesc]
      rfl
    rw [hio, ← Ordered_iff_pairwise]
    exact Ordd_bstAttach st.root hord trivial trivial Color.RED _ rfl

theorem runInserts_valid (ops : List (String × Int)) :
    ValidTree (runInserts ops).root := by
  suffices hgen : ∀ st : RBState, ValidTree st.root →
      ValidTree (ops.foldl (fun st op => (insert_domain st op.1 op.2).1) st).root by
    exact hgen RBState.empty validTree_nil
  induction ops with
  | nil => exact fun st hv => hv
  | cons op rest ih =>
    exact fun st hv => ih _ (insert_domain_valid st op.1 op.2 hv)

theorem insert_domain_domains_subset (st : RBState) (d : String) (s : Int) :
    ∀ x ∈ Tree.inorderDomains (insert_domain st d s).1.root,
      x = d ∨ x ∈ Tree.inorderDomains st.root := by
  cases hdesc : insertDescend st.root d [] with
  | inr res =>
    obtain ⟨path, c, e, l, r⟩ := res
    obtain ⟨hzip, hdom, hsearch⟩ := insertDescend_inr_spec st.root hdesc
    have hx : ({ e with reputation_score := s } : Entry).domain = d := hdom
    have hroot' : (insert_domain st d s).1.root =
        replaceFound st.root d { e with reputation_score := s } := by
      simp only [insert_domain, hdesc]
      exact hzip _
    intro x hmem
    rw [hroot', replaceFound_domains st.root hx] at hmem
    exact Or.inr hmem
  | inl path =>
    intro x hmem
    have hroot' : (insert_domain st d s).1.root =
        insert_fixup (Tree.node Color.RED Tree.nil
          { domain := d, reputation_score := s,
            spam_reports := 0, legitimate_reports := 0 } Tree.nil) path := by
      simp only [insert_domain, hdesc]
    rw [hroot'] at hmem
    obtain ⟨ent, hent, hdom⟩ := List.mem_map.mp hmem
    rw [insert_fixup_inorder, insertDescend_inl_zip st.root hdesc] at hent
    rcases bstAttach_inorder_subset st.root hent with hm | hm
    · exact Or.inr (hdom ▸ List.mem_map_of_mem Entry.domain hm)
    · simp only [Tree.inorderEntries, List.mem_append, List.mem_cons,
        List.not_mem_nil, or_false, false_or] at hm
      subst hm
      exact Or.inl hdom.symm

theorem runInserts_domains_subset (ops : List (String × Int)) :
    ∀ x ∈ Tree.inorderDomains (runInserts ops).root, x ∈ ops.map Prod.fst := by
  suffices hgen : ∀ (st : RBState) (x : String),
      x ∈ Tree.inorderDomains
        (ops.foldl (fun st op => (insert_domain st op.1 op.2).1) st).root →
      x ∈ Tree.inorderDomains st.root ∨ x ∈ ops.map Prod.fst by
    intro x hx
    rcases hgen RBState.empty x hx with h | h
    · cases h
    · exact h
  induction ops with
  | nil => exact fun st x hx => Or.inl hx
  | cons op rest ih =>
    intro st x hx
    rcases ih _ x hx with h | h
    · rcases insert_domain_domains_subset st op.1 op.2 x h with rfl | h2
      · exact Or.inr (by simp)
      · exact Or.inl h2
    · exact Or.inr (List.mem_cons_of_mem _ h)

theorem insert_domain_mem_domain (st : RBState) (d : String) (s : Int) :
    d ∈ Tree.inorderDomains (insert_domain st d s).1.root := by
  cases hdesc : insertDescend st.root d [] with
  | inr res =>
    obtain ⟨path, c, e, l, r⟩ := res
    obtain ⟨hzip, hdom, hsearch⟩ := insertDescend_inr_spec st.root hdesc
    have hx : ({ e with reputation_score := s } : Entry).domain = d := hdom
    have hroot' : (insert_domain st d s).1.root =
        replaceFound st.root d { e with reputation_score := s } := by
      simp only [insert_domain, hdesc]
      exact hzip _
    rw [hroot', replaceFound_domains st.root hx, ← hdom]
    exact List.mem_map_of_mem Entry.domain (search_domain_mem hsearch)
  | inl path =>
    have hroot' : (insert_domain st d s).1.root =
        insert_fixup (Tree.node Color.RED Tree.nil
          { domain := d, reputation_score := s,
            spam_reports := 0, legitimate_reports := 0 } Tree.nil) path := by
      simp only [insert_domain, hdesc]
    rw [hroot']
    have hment : Entry.mk d s 0 0 ∈
        Tree.inorderEntries (insert_fixup (Tree.node Color.RED Tree.nil
          (Entry.mk d s 0 0) Tree.nil) path) := by
      rw [insert_fixup_inorder]
      exact zip_inorder_mem (by simp [Tree.inorderEntries]) path
    exact List.mem_map_of_mem Entry.domain hment

/-- Claim C1: after any sequence of `insert_domain` calls from the
empty tree, the code's own red-black checks pass — the root is BLACK,
no RED node has a RED child, every root-to-sentinel path has the same
black height — and the in-order domain sequence is strictly ascending
(hence each domain unique). -/
theorem claim_C1_rb_invariants (ops : List (String × Int)) :
    Tree.rootBlackOk (runInserts ops).root = true ∧
    Tree.verifyNoRedRed (runInserts ops).root = true ∧
    Tree.getBlackHeight (runInserts ops).root ≠ -1 ∧
    List.Pairwise (fun a b => strLt a b = true)
      (Tree.inorderDomains (runInserts ops).root) ∧
    (Tree.inorderDomains (runInserts ops).root).Nodup := by
  obtain ⟨⟨h, ht⟩, hroot, hord⟩ := runInserts_valid ops
  refine ⟨rootBlackOk_of_rootColor hroot, isRB_verifyNoRedRed ht, ?_, ?_, ?_⟩
  · rw [isRB_getBlackHeight ht]
    omega
  · exact (Ordered_iff_pairwise _).mp hord
  · exact List.Pairwise.imp (fun hab => strLt_ne hab)
      ((Ordered_iff_pairwise _).mp hord)

/-- Claim C3: after `insert_domain(d, s)` on any tree built by inserts,
`search_domain d` returns an entry whose domain is `d`; searching any
domain never inserted returns the not-found result; and the embedding
of `search_domain` returns the tree state unchanged — it performs no
mutation. -/
theorem claim_C3_search_after_insert (ops : List (String × Int)) (d : String)
    (s : Int) :
    (∃ e, search_domain (insert_domain (runInserts ops) d s).1.root d = some e ∧
      e.domain = d) ∧
    (∀ x, x ∉ ops.map Prod.fst → x ≠ d →
      search_domain (insert_domain (runInserts ops) d s).1.root x = none) ∧
    (∀ (t : Tree) (x : String), search_domainS t x = (search_domain t x, t)) := by
  have hv' := insert_domain_valid (runInserts ops) d s (runInserts_valid ops)
  refine ⟨?_, ?_, fun t x => rfl⟩
  · have hmem := insert_domain_mem_domain (runInserts ops) d s
    have hsome := search_domain_isSome_of_mem _ hv'.2.2 hmem
    obtain ⟨e, he⟩ := Option.isSome_iff_exists.mp hsome
    exact ⟨e, he, search_domain_some_domain he⟩
  · intro x hx hxd
    apply search_domain_none_of_not_mem
    intro hmem
    rcases insert_domain_domains_subset (runInserts ops) d s x hmem with rfl | hm2
    · exact hxd rfl
    · exact hx (runInserts_domains_subset ops x hm2)

theorem claim_C3_witness :
    (∃ e, search_domain
        (insert_domain (runInserts [("b.com", 50)]) "a.com" 80).1.root "a.com" =
        some e ∧ e.domain = "a.com") ∧
    search_domain
      (insert_domain (runInserts [("b.com", 50)]) "a.com" 80).1.root "z.com" =
      none :=
  ⟨(claim_C3_search_after_insert [("b.com", 50)] "a.com" 80).1,
    (claim_C3_search_after_insert [("b.com", 50)] "a.com" 80).2.1 "z.com"
      (by decide) (by decide)⟩

end SpamDetection
